import Mathlib

/-!
# elb-docker-sync: a shallow embedding of `main.go`

The program keeps an ELB target group in sync with the Docker containers of one
host.  This file embeds `main.go` and proves properties of its reconciliation
logic.

Modelling conventions.

* A Go `string` is the list of its bytes (`GoString`); a byte is a `Nat`.
* Go's `int` is the 64-bit signed integer; values are `Int`s, and the only
  place where the width matters (`strconv.Atoi`) is modelled with its
  explicit bounds.
* A Go panic is `none`.
* The Docker daemon and the ELB control plane are collaborators.  The pure
  part of every function takes the collaborator's response as an argument;
  `processAll` runs against an abstract `World` and records the calls it makes.
-/

namespace ElbDockerSync

/-! ## Strings -/

/-- A Go string, as its sequence of bytes. -/
abbrev GoString := List Nat

/-- The bytes of an ASCII literal. -/
def ascii (s : String) : GoString := s.toList.map Char.toNat

/-- The Go expression `strings.HasPrefix(s, p)`. -/
def HasPrefix : GoString → GoString → Bool
  | _, [] => true
  | [], _ :: _ => false
  | b :: s, c :: p => b == c && HasPrefix s p

/-! ## `elbTarget` and `elbTargetSlice.contain` (main.go 22-35) -/

/-- The struct `elbTarget`. -/
structure elbTarget where
  instanceID : GoString
  instancePort : Int
  deriving DecidableEq, Repr

/-- The type `elbTargetSlice`. -/
abbrev elbTargetSlice := List elbTarget

/-- The method `elbTargetSlice.contain`: a linear scan with `==`. -/
def elbTargetSlice.contain : elbTargetSlice → elbTarget → Bool
  | [], _ => false
  | t :: targets, target => if target = t then true else elbTargetSlice.contain targets target

/-! ## `getContainerVersion` (main.go 37-44) -/

/-- The regexp class `\d`: an ASCII decimal digit. -/
def isDigit (b : Nat) : Bool := 48 ≤ b && b ≤ 57

/-- The call `regexp.MustCompile("v(\\d+)").FindStringSubmatch(name)`: the
leftmost position holding `v` and a digit matches, the group `(\d+)` is greedy;
the result is `[whole match, group 1]`, or the nil slice when nothing matches.
Every ASCII byte is a rune of its own in Go's decoding, also in a string that
is not valid UTF-8, so matching runs over bytes. -/
def FindStringSubmatch : GoString → List GoString
  | [] => []
  | b :: rest =>
    if b = 118 ∧ rest.takeWhile isDigit ≠ [] then
      [118 :: rest.takeWhile isDigit, rest.takeWhile isDigit]
    else FindStringSubmatch rest

/-- The errors of `strconv`. -/
inductive NumError where
  | ErrSyntax
  | ErrRange
  deriving DecidableEq, Repr

/-- The largest `uint64`. -/
def maxUint64 : Nat := 2 ^ 64 - 1

/-- The largest `int` (64 bits). -/
def maxInt : Int := 2 ^ 63 - 1

/-- The digit loop of `strconv.ParseUint(s, 10, 64)`, `n` being the value
accumulated so far. -/
def ParseUintLoop : GoString → Nat → Nat × Option NumError
  | [], n => (n, none)
  | c :: s, n =>
    if !(isDigit c) then (0, some NumError.ErrSyntax)
    else
      let d := c - 48
      if n ≥ maxUint64 / 10 + 1 then (maxUint64, some NumError.ErrRange)
      else
        let n10 := n * 10
        let n1 := (n10 + d) % 2 ^ 64
        if n1 < n10 ∨ n1 > maxUint64 then (maxUint64, some NumError.ErrRange)
        else ParseUintLoop s n1

/-- The call `strconv.ParseUint(s, 10, 64)` on a string without sign or
underscore. -/
def ParseUint (s : GoString) : Nat × Option NumError :=
  if s = [] then (0, some NumError.ErrSyntax) else ParseUintLoop s 0

/-- The call `strconv.Atoi(s)`, that is `strconv.ParseInt(s, 10, 0)`, on a
string without sign (the regexp group holds digits only): a value of `2^63` or
more is a range error and yields the largest `int`. -/
def Atoi (s : GoString) : Int × Option NumError :=
  match ParseUint s with
  | (_, some NumError.ErrSyntax) => (0, some NumError.ErrSyntax)
  | (un, r) =>
    if un ≥ 2 ^ 63 then (maxInt, some NumError.ErrRange)
    else ((un : Int), r)

/-- The function `getContainerVersion`: the named result `version` starts at
`0` and is assigned only when the regexp matched; the error of `Atoi` is
dropped. -/
def getContainerVersion (name : GoString) : Int :=
  let version : Int := 0
  let «matches» := FindStringSubmatch name
  if «matches».length = 2 then (Atoi («matches».getD 1 [])).1 else version

/-- The number a digit string denotes, continuing from `acc`. -/
def decimalFrom (acc : Nat) (ds : GoString) : Nat :=
  ds.foldl (fun a d => 10 * a + (d - 48)) acc

/-- The number a digit string denotes. -/
def decimalValue (ds : GoString) : Nat := decimalFrom 0 ds

/-- A position of `name` that holds `v` followed by a digit. -/
def hasVersionToken : GoString → Bool
  | [] => false
  | b :: rest => (b == 118 && (rest.head?.map isDigit).getD false) || hasVersionToken rest


/-! ## `getNewTargets` (main.go 46-89) -/

/-- A port mapping of a container, `types.Port`; the program reads `PublicPort`. -/
structure Port where
  PublicPort : Int
  deriving DecidableEq, Repr

/-- A container as listed by the Docker daemon, `types.Container`; the program
reads `Names` and `Ports`. -/
structure Container where
  Names : List GoString
  Ports : List Port
  deriving DecidableEq, Repr

/-- The expression `c.Names[0][1:]` (main.go 64): the index panics on a
container without a name, the slice on an empty name. -/
def primaryName (c : Container) : Option GoString :=
  match c.Names with
  | [] => none
  | [] :: _ => none
  | (_ :: name) :: _ => some name

/-- The map `matchedContainers`, of type `map[int][]types.Container`: a key
that was never written reads as the nil slice. -/
abbrev VersionMap := Int → List Container

/-- The map made by `make(map[int][]types.Container)`. -/
def emptyVersionMap : VersionMap := fun _ => []

/-- The first loop of `getNewTargets` (main.go 63-75), from the current values
of `highestVersion` and `matchedContainers`. -/
def matchLoop (dockerPrefix : GoString) :
    List Container → Int → VersionMap → Option (Int × VersionMap)
  | [], highestVersion, matchedContainers => some (highestVersion, matchedContainers)
  | c :: containers, highestVersion, matchedContainers =>
    match primaryName c with
    | none => none
    | some name =>
      if !(HasPrefix name dockerPrefix) then
        matchLoop dockerPrefix containers highestVersion matchedContainers
      else
        let version := getContainerVersion name
        let matchedContainers' : VersionMap :=
          fun k => if k = version then matchedContainers k ++ [c] else matchedContainers k
        let highestVersion' := if version > highestVersion then version else highestVersion
        matchLoop dockerPrefix containers highestVersion' matchedContainers'

/-- The loop over `c.Ports` (main.go 79-85), appending to `targets`. -/
def portLoop (instanceID : GoString) (targets : elbTargetSlice) (ports : List Port) :
    elbTargetSlice :=
  ports.foldl
    (fun targets p =>
      if p.PublicPort = 0 then targets
      else targets ++ [{ instanceID := instanceID, instancePort := p.PublicPort }])
    targets

/-- The loop over `matchedContainers[highestVersion]` (main.go 77-86). -/
def targetLoop (instanceID : GoString) (group : List Container) : elbTargetSlice :=
  group.foldl (fun targets c => portLoop instanceID targets c.Ports) []

/-- The function `getNewTargets` from the point where `cli.ContainerList` has
returned `containers` (main.go 59-88); `none` is a panic. -/
def getNewTargets (instanceID dockerPrefix : GoString) (containers : List Container) :
    Option elbTargetSlice :=
  match matchLoop dockerPrefix containers 0 emptyVersionMap with
  | none => none
  | some (highestVersion, matchedContainers) =>
    some (targetLoop instanceID (matchedContainers highestVersion))

/-! ## `getTargetGroupArn` and `getOldTargets` (main.go 91-120) -/

/-- The struct `elbv2.TargetGroup`; a pointer field is an `Option`. -/
structure TargetGroup where
  TargetGroupArn : Option GoString
  deriving DecidableEq, Repr

/-- The struct `elbv2.TargetDescription`. -/
structure TargetDescription where
  Id : Option GoString
  Port : Option Int
  deriving DecidableEq, Repr

/-- The struct `elbv2.TargetHealthDescription`. -/
structure TargetHealthDescription where
  Target : Option TargetDescription
  deriving DecidableEq, Repr

/-- The function `getTargetGroupArn` from the point where
`DescribeTargetGroups` has returned `resp.TargetGroups` (main.go 101). -/
def getTargetGroupArn (targetGroups : List (Option TargetGroup)) : Option GoString :=
  match targetGroups with
  | [] => none
  | none :: _ => none
  | some tg :: _ => tg.TargetGroupArn

/-- The loop of `getOldTargets` (main.go 113-117), appending to `targets`;
a nil pointer that is dereferenced panics. -/
def oldTargetLoop (instanceID : GoString) :
    List (Option TargetHealthDescription) → elbTargetSlice → Option elbTargetSlice
  | [], targets => some targets
  | none :: _, _ => none
  | some target :: rest, targets =>
    match target.Target with
    | none => none
    | some td =>
      match td.Id with
      | none => none
      | some id =>
        if id = instanceID then
          match td.Port with
          | none => none
          | some port =>
            oldTargetLoop instanceID rest (targets ++ [{ instanceID := id, instancePort := port }])
        else oldTargetLoop instanceID rest targets

/-- The function `getOldTargets` from the point where `DescribeTargetHealth`
has returned `hResp.TargetHealthDescriptions` (main.go 111-119). -/
def getOldTargets (instanceID : GoString)
    (descriptions : List (Option TargetHealthDescription)) : Option elbTargetSlice :=
  oldTargetLoop instanceID descriptions []

/-! ## `processAll` (main.go 159-191) -/

/-- The collaborators, over a state `σ` of the outside world.  Every call takes
the state and returns the next one; `none` is a call that returns an error. -/
structure World (σ : Type) where
  DescribeTargetGroups : σ → GoString → Option (List (Option TargetGroup) × σ)
  DescribeTargetHealth : σ → GoString → Option (List (Option TargetHealthDescription) × σ)
  ContainerList : σ → Option (List Container × σ)
  RegisterTargets : σ → GoString → elbTarget → Option σ
  DeregisterTargets : σ → GoString → elbTarget → Option σ

/-- What `processAll` does to the outside: a log line, or a call that changes
the target group. -/
inductive Event where
  | logRegistering (targetGroupName : GoString) (target : elbTarget)
  | registerTarget (targetGroupArn : GoString) (target : elbTarget)
  | logDeRegistering (targetGroupName : GoString) (target : elbTarget)
  | deregisterTarget (targetGroupArn : GoString) (target : elbTarget)
  deriving DecidableEq, Repr

/-- The events of a run in order, and the state it ends in; `none` when the run
panicked. -/
abbrev Run (σ : Type) := List Event × Option σ

/-- Sequencing of two parts of a run: a panic in the first part ends the run. -/
def Run.andThen {σ : Type} (r : Run σ) (k : σ → Run σ) : Run σ :=
  match r.2 with
  | none => (r.1, none)
  | some s => (r.1 ++ (k s).1, (k s).2)

/-- The function `registerTarget` (main.go 122-134): the call is made, and an
error panics. -/
def registerTarget {σ : Type} (W : World σ) (targetGroupArn : GoString) (target : elbTarget)
    (s : σ) : Run σ :=
  ([Event.registerTarget targetGroupArn target], W.RegisterTargets s targetGroupArn target)

/-- The function `deregisterTarget` (main.go 136-148). -/
def deregisterTarget {σ : Type} (W : World σ) (targetGroupArn : GoString) (target : elbTarget)
    (s : σ) : Run σ :=
  ([Event.deregisterTarget targetGroupArn target], W.DeregisterTargets s targetGroupArn target)

/-- The loop over `newTargets` (main.go 177-182). -/
def registerLoop {σ : Type} (W : World σ) (targetGroupName targetGroupArn : GoString)
    (oldTargets : elbTargetSlice) : elbTargetSlice → σ → Run σ
  | [], s => ([], some s)
  | target :: rest, s =>
    if !(oldTargets.contain target) then
      Run.andThen
        (Run.andThen ([Event.logRegistering targetGroupName target], some s)
          (registerTarget W targetGroupArn target))
        (registerLoop W targetGroupName targetGroupArn oldTargets rest)
    else registerLoop W targetGroupName targetGroupArn oldTargets rest s

/-- The loop over `oldTargets` (main.go 184-189). -/
def deregisterLoop {σ : Type} (W : World σ) (targetGroupName targetGroupArn : GoString)
    (newTargets : elbTargetSlice) : elbTargetSlice → σ → Run σ
  | [], s => ([], some s)
  | target :: rest, s =>
    if !(newTargets.contain target) then
      Run.andThen
        (Run.andThen ([Event.logDeRegistering targetGroupName target], some s)
          (deregisterTarget W targetGroupArn target))
        (deregisterLoop W targetGroupName targetGroupArn newTargets rest)
    else deregisterLoop W targetGroupName targetGroupArn newTargets rest s

/-- The body of the loop of `processAll` from the guard on (main.go 171-189),
for the `oldTargets` and `newTargets` of one pair. -/
def syncTargets {σ : Type} (W : World σ) (targetGroupName targetGroupArn : GoString)
    (oldTargets newTargets : elbTargetSlice) (s : σ) : Run σ :=
  if newTargets.length = 0 then ([], some s)
  else
    Run.andThen (registerLoop W targetGroupName targetGroupArn oldTargets newTargets s)
      (deregisterLoop W targetGroupName targetGroupArn newTargets oldTargets)

/-- The call `strings.Split(s, ",")` for the one-byte separator `sep`. -/
def Split (sep : Nat) : GoString → List GoString
  | [] => [[]]
  | b :: s =>
    if b = sep then [] :: Split sep s
    else
      match Split sep s with
      | [] => [[b]]
      | piece :: pieces => (b :: piece) :: pieces

/-- What one pair resolves to before the guard (main.go 162-167). -/
structure Resolved (σ : Type) where
  targetGroupName : GoString
  targetGroupArn : GoString
  oldTargets : elbTargetSlice
  newTargets : elbTargetSlice
  state : σ
  deriving DecidableEq

/-- The head of the loop body of `processAll` (main.go 162-167): split the
argument, resolve the target group, fetch `oldTargets`, then `newTargets`.
No event happens here; `none` is a panic. -/
def resolveTargets {σ : Type} (W : World σ) (instanceID arg : GoString) (s : σ) :
    Option (Resolved σ) :=
  match Split 44 arg with
  | dockerPrefix :: targetGroupName :: _ =>
    match W.DescribeTargetGroups s targetGroupName with
    | none => none
    | some (targetGroups, s1) =>
      match getTargetGroupArn targetGroups with
      | none => none
      | some targetGroupArn =>
        match W.DescribeTargetHealth s1 targetGroupArn with
        | none => none
        | some (descriptions, s2) =>
          match getOldTargets instanceID descriptions with
          | none => none
          | some oldTargets =>
            match W.ContainerList s2 with
            | none => none
            | some (containers, s3) =>
              match getNewTargets instanceID dockerPrefix containers with
              | none => none
              | some newTargets =>
                some
                  { targetGroupName := targetGroupName
                    targetGroupArn := targetGroupArn
                    oldTargets := oldTargets
                    newTargets := newTargets
                    state := s3 }
  | _ => none

/-- The body of the loop of `processAll` for one argument (main.go 162-189). -/
def processArg {σ : Type} (W : World σ) (instanceID arg : GoString) (s : σ) : Run σ :=
  match resolveTargets W instanceID arg s with
  | none => ([], none)
  | some r => syncTargets W r.targetGroupName r.targetGroupArn r.oldTargets r.newTargets r.state

/-- The function `processAll`, `args` being `os.Args[1:]`. -/
def processAll {σ : Type} (W : World σ) (instanceID : GoString) : List GoString → σ → Run σ
  | [], s => ([], some s)
  | arg :: args, s =>
    Run.andThen (processArg W instanceID arg s) (processAll W instanceID args)

/-! ## Reading a run -/

/-- The targets of the `registerTarget` calls of a trace, in order. -/
def registered : List Event → elbTargetSlice
  | [] => []
  | Event.registerTarget _ t :: es => t :: registered es
  | _ :: es => registered es

/-- The targets of the `deregisterTarget` calls of a trace, in order. -/
def deregistered : List Event → elbTargetSlice
  | [] => []
  | Event.deregisterTarget _ t :: es => t :: deregistered es
  | _ :: es => deregistered es

/-- The effect of the calls of a trace on the list of registered targets, as
the load balancer keeps it: a registered target is added, a deregistered one
removed, a log line changes nothing. -/
def applyEvents : List Event → elbTargetSlice → elbTargetSlice
  | [], actual => actual
  | Event.registerTarget _ t :: es, actual => applyEvents es (actual ++ [t])
  | Event.deregisterTarget _ t :: es, actual => applyEvents es (actual.filter (fun u => u ≠ t))
  | _ :: es, actual => applyEvents es actual

/-! ## A concrete world -/

/-- A load balancer and a Docker daemon in one state: the target groups by name,
the registrations by target group, and the containers. -/
structure SimState where
  groups : List (GoString × GoString)
  registrations : List (GoString × elbTarget)
  containers : List Container
  deriving DecidableEq, Repr

/-- Collaborators whose calls never fail and are idempotent: the load balancer
answers from the registrations it holds, the daemon lists its containers. -/
def simWorld : World SimState where
  DescribeTargetGroups := fun s name =>
    some (((s.groups.filter (fun g => g.1 = name)).map
      (fun g => some { TargetGroupArn := some g.2 })), s)
  DescribeTargetHealth := fun s arn =>
    some (((s.registrations.filter (fun r => r.1 = arn)).map
      (fun r => some { Target := some { Id := some r.2.instanceID,
                                        Port := some r.2.instancePort } })), s)
  ContainerList := fun s => some (s.containers, s)
  RegisterTargets := fun s arn t =>
    some (if (arn, t) ∈ s.registrations then s
      else { s with registrations := s.registrations ++ [(arn, t)] })
  DeregisterTargets := fun s arn t =>
    some { s with registrations := s.registrations.filter (fun r => r ≠ (arn, t)) }

/-! ## Reading a container list -/

/-- The container has a primary name to strip: line 64 does not panic on it. -/
def hasName (c : Container) : Bool := (primaryName c).isSome

/-- The container's primary name, after its first byte is dropped, starts with
the prefix. -/
def matched (dockerPrefix : GoString) (c : Container) : Bool :=
  match primaryName c with
  | some name => HasPrefix name dockerPrefix
  | none => false

/-- The version `getContainerVersion` extracts from the container's stripped
primary name. -/
def versionOf (c : Container) : Int :=
  match primaryName c with
  | some name => getContainerVersion name
  | none => 0

/-- The largest extracted version among the matched containers, from `start`. -/
def highestOf (dockerPrefix : GoString) (cs : List Container) (start : Int) : Int :=
  ((cs.filter (matched dockerPrefix)).map versionOf).foldl max start

/-- The container is matched and no matched container of the list has a larger
extracted version. -/
def isHighest (dockerPrefix : GoString) (cs : List Container) (c : Container) : Bool :=
  matched dockerPrefix c &&
    cs.all (fun c' => !(matched dockerPrefix c') || decide (versionOf c' ≤ versionOf c))

/-- One target for every port mapping of the container with a non-zero public
port, in order. -/
def containerTargets (instanceID : GoString) (c : Container) : elbTargetSlice :=
  (c.Ports.filter (fun p => p.PublicPort ≠ 0)).map
    (fun p => { instanceID := instanceID, instancePort := p.PublicPort })

/-- The container is matched and some matched container of the list has a
strictly larger extracted version. -/
def isLower (dockerPrefix : GoString) (cs : List Container) (c : Container) : Bool :=
  matched dockerPrefix c &&
    cs.any (fun c' => matched dockerPrefix c' && decide (versionOf c < versionOf c'))

/-- The container has a primary name and, stripped, it does not start with the
prefix. -/
def nonMatching (dockerPrefix : GoString) (c : Container) : Bool :=
  hasName c && !(matched dockerPrefix c)

/-- The container has a primary name and it holds no `v` followed by a digit. -/
def untagged (c : Container) : Bool :=
  match primaryName c with
  | some name => !(hasVersionToken name)
  | none => false

/-- The port of a description that names the host `instanceID`. -/
def hostPort (instanceID : GoString) (d : Option TargetHealthDescription) : Option Int :=
  match d with
  | some { Target := some { Id := some id, Port := some port } } =>
    if id = instanceID then some port else none
  | _ => none

/-- The ports of the descriptions that name the host `instanceID`, in order. -/
def hostPorts (instanceID : GoString) (ds : List (Option TargetHealthDescription)) : List Int :=
  ds.filterMap (hostPort instanceID)

/-! ## Example data -/

/-- A fleet whose extracted versions are 0, 1, 1 and 3. -/
def fleet0113 : List Container :=
  [ { Names := [ascii "/app-v0-a"], Ports := [⟨8000⟩] },
    { Names := [ascii "/app-v1-a"], Ports := [⟨8001⟩] },
    { Names := [ascii "/app-v1-b"], Ports := [⟨8002⟩] },
    { Names := [ascii "/app-v3-a"], Ports := [⟨8003⟩, ⟨0⟩, ⟨8004⟩] } ]

/-- A fleet without any version tag. -/
def fleetUntagged : List Container :=
  [ { Names := [ascii "/myapp-web"], Ports := [⟨8080⟩] } ]

/-- A fleet in which an untagged container stands next to a version-2 one. -/
def fleetMixed : List Container :=
  [ { Names := [ascii "/myapp-web"], Ports := [⟨8080⟩] },
    { Names := [ascii "/myapp-v2"], Ports := [⟨8082⟩] } ]

/-- A fleet with a container of another service, tagged higher than the
matching one. -/
def fleetOther : List Container :=
  [ { Names := [ascii "/other-service-v2"], Ports := [⟨9000⟩] },
    { Names := [ascii "/myapp-v1"], Ports := [⟨8081⟩, ⟨0⟩] } ]

/-- The target `A` of the examples: port 8080 on the host `i-1`. -/
def targetA : elbTarget := { instanceID := ascii "i-1", instancePort := 8080 }

/-- The target `B` of the examples: port 8081 on the host `i-1`. -/
def targetB : elbTarget := { instanceID := ascii "i-1", instancePort := 8081 }

/-- The target `C` of the examples: port 8082 on the host `i-1`. -/
def targetC : elbTarget := { instanceID := ascii "i-1", instancePort := 8082 }

/-- A state in which `A` and `B` are registered and the daemon lists no
container. -/
def stateNoContainers : SimState :=
  { groups := [(ascii "app-tg", ascii "arn:app")]
    registrations := [(ascii "arn:app", targetA), (ascii "arn:app", targetB)]
    containers := [] }

/-- A state in which `A` of this host and port 8080 of the host `i-2` are
registered, and `app-v2-a` has replaced `app-v1-a`. -/
def stateRolling : SimState :=
  { groups := [(ascii "app-tg", ascii "arn:app")]
    registrations :=
      [(ascii "arn:app", targetA),
       (ascii "arn:app", { instanceID := ascii "i-2", instancePort := 8080 })]
    containers :=
      [ { Names := [ascii "/app-v1-a"], Ports := [⟨8080⟩] },
        { Names := [ascii "/app-v2-a"], Ports := [⟨8081⟩] } ] }

/-- A state in which nothing is registered and one container maps the public
port 8080 twice (once per address family). -/
def stateTwice : SimState :=
  { groups := [(ascii "app-tg", ascii "arn:app")]
    registrations := []
    containers := [ { Names := [ascii "/app-v1-a"], Ports := [⟨8080⟩, ⟨8080⟩] } ] }

/-! # Theorems -/

theorem decimalFrom_ge (ds : GoString) (n : Nat) : n ≤ decimalFrom n ds := by
  induction ds generalizing n with
  | nil => simp [decimalFrom]
  | cons d ds ih =>
    have h := ih (10 * n + (d - 48))
    simp only [decimalFrom, List.foldl_cons] at h ⊢
    omega

theorem decimalFrom_cons (d : Nat) (ds : GoString) (n : Nat) :
    decimalFrom n (d :: ds) = decimalFrom (10 * n + (d - 48)) ds := rfl

theorem ParseUintLoop_eq (ds : GoString) (n : Nat) (hd : ∀ d ∈ ds, isDigit d = true)
    (hn : n ≤ maxUint64) :
    ParseUintLoop ds n =
      if decimalFrom n ds ≤ maxUint64 then (decimalFrom n ds, none)
      else (maxUint64, some NumError.ErrRange) := by
  induction ds generalizing n with
  | nil => simp [ParseUintLoop, decimalFrom, hn]
  | cons c ds ih =>
    have hc : isDigit c = true := hd c (List.mem_cons_self _ _)
    have hds : ∀ d ∈ ds, isDigit d = true := fun d h => hd d (List.mem_cons_of_mem _ h)
    have hc' : 48 ≤ c ∧ c ≤ 57 := by simpa [isDigit] using hc
    have hge := decimalFrom_ge ds (10 * n + (c - 48))
    rw [decimalFrom_cons]
    simp only [ParseUintLoop, hc, Bool.not_true, Bool.false_eq_true, if_false]
    unfold maxUint64 at *
    by_cases h1 : n ≥ (2 ^ 64 - 1) / 10 + 1
    · rw [if_pos h1, if_neg (by omega)]
    · rw [if_neg h1]
      by_cases h2 : n * 10 + (c - 48) < 2 ^ 64
      · have hmod : (n * 10 + (c - 48)) % 2 ^ 64 = n * 10 + (c - 48) := Nat.mod_eq_of_lt h2
        simp only [hmod]
        rw [if_neg (by omega), ih _ hds (by omega)]
        have : n * 10 + (c - 48) = 10 * n + (c - 48) := by omega
        rw [this]
      · have hmod : (n * 10 + (c - 48)) % 2 ^ 64 = n * 10 + (c - 48) - 2 ^ 64 := by
          rw [Nat.mod_eq_sub_mod (by omega), Nat.mod_eq_of_lt (by omega)]
        simp only [hmod]
        rw [if_pos (by omega), if_neg (by omega)]

theorem Atoi_digits (ds : GoString) (hne : ds ≠ []) (hd : ∀ d ∈ ds, isDigit d = true) :
    (Atoi ds).1 = min (decimalValue ds : Int) maxInt := by
  unfold Atoi ParseUint decimalValue
  rw [if_neg hne, ParseUintLoop_eq ds 0 hd (by decide)]
  unfold maxUint64 maxInt
  by_cases h : decimalFrom 0 ds ≤ 2 ^ 64 - 1
  · rw [if_pos h]
    by_cases h2 : decimalFrom 0 ds ≥ 2 ^ 63
    · simp only [h2, if_true]
      omega
    · simp only [h2, if_false]
      omega
  · rw [if_neg h]
    simp only [ge_iff_le]
    rw [if_pos (by omega)]
    omega

theorem takeWhile_digit_run (ds post : GoString) (hd : ∀ d ∈ ds, isDigit d = true)
    (hp : ∀ b, post.head? = some b → isDigit b = false) :
    (ds ++ post).takeWhile isDigit = ds := by
  induction ds with
  | nil =>
    cases post with
    | nil => rfl
    | cons b post => simp [List.takeWhile, hp b rfl]
  | cons d ds ih =>
    have h1 : isDigit d = true := hd d (List.mem_cons_self _ _)
    simp [List.takeWhile, h1, ih (fun d h => hd d (List.mem_cons_of_mem _ h))]

theorem FindStringSubmatch_leftmost (pre ds post : GoString)
    (hpre : hasVersionToken pre = false) (hne : ds ≠ [])
    (hd : ∀ d ∈ ds, isDigit d = true)
    (hp : ∀ b, post.head? = some b → isDigit b = false) :
    FindStringSubmatch (pre ++ 118 :: (ds ++ post)) = [118 :: ds, ds] := by
  induction pre with
  | nil =>
    simp [FindStringSubmatch, takeWhile_digit_run ds post hd hp, hne]
  | cons b pre ih =>
    simp only [hasVersionToken, Bool.or_eq_false_iff] at hpre
    have hno : ¬ (b = 118 ∧ (pre ++ 118 :: (ds ++ post)).takeWhile isDigit ≠ []) := by
      rintro ⟨hb, ht⟩
      cases pre with
      | nil => simp [List.takeWhile, isDigit] at ht
      | cons c pre =>
        have h1 := hpre.1
        simp only [hb, List.head?_cons, Option.map_some', Option.getD_some, beq_self_eq_true,
          Bool.true_and] at h1
        simp [List.takeWhile, h1] at ht
    have hcons : (b :: pre) ++ 118 :: (ds ++ post) = b :: (pre ++ 118 :: (ds ++ post)) := rfl
    rw [hcons, FindStringSubmatch, if_neg hno]
    exact ih hpre.2

theorem FindStringSubmatch_none (name : GoString) (h : hasVersionToken name = false) :
    FindStringSubmatch name = [] := by
  induction name with
  | nil => rfl
  | cons b rest ih =>
    simp only [hasVersionToken, Bool.or_eq_false_iff] at h
    have hno : ¬ (b = 118 ∧ rest.takeWhile isDigit ≠ []) := by
      rintro ⟨hb, ht⟩
      cases rest with
      | nil => simp at ht
      | cons c rest =>
        have h1 := h.1
        simp only [hb, List.head?_cons, Option.map_some', Option.getD_some, beq_self_eq_true,
          Bool.true_and] at h1
        simp [List.takeWhile, h1] at ht
    simp only [FindStringSubmatch, if_neg hno]
    exact ih h.2

theorem getContainerVersion_no_token (name : GoString) (h : hasVersionToken name = false) :
    getContainerVersion name = 0 := by
  simp [getContainerVersion, FindStringSubmatch_none name h]

theorem getContainerVersion_token (pre ds post : GoString)
    (hpre : hasVersionToken pre = false) (hne : ds ≠ [])
    (hd : ∀ d ∈ ds, isDigit d = true)
    (hp : ∀ b, post.head? = some b → isDigit b = false) :
    getContainerVersion (pre ++ 118 :: (ds ++ post)) = min (decimalValue ds : Int) maxInt := by
  simp only [getContainerVersion, FindStringSubmatch_leftmost pre ds post hpre hne hd hp]
  simp [Atoi_digits ds hne hd]

theorem Atoi_nonneg (s : GoString) : 0 ≤ (Atoi s).1 := by
  unfold Atoi
  split
  · simp
  · split
    · simp [maxInt]
    · simp

theorem getContainerVersion_nonneg (name : GoString) : 0 ≤ getContainerVersion name := by
  unfold getContainerVersion
  simp only
  split
  · exact Atoi_nonneg _
  · simp

/-- Every name that holds `v` followed by a digit splits at its leftmost such
position into what precedes, the `v`, the whole digit run, and the rest. -/
theorem token_decompose (name : GoString) (h : hasVersionToken name = true) :
    ∃ pre ds post, name = pre ++ 118 :: (ds ++ post) ∧ hasVersionToken pre = false ∧ ds ≠ [] ∧
      (∀ d ∈ ds, isDigit d = true) ∧ (∀ b, post.head? = some b → isDigit b = false) := by
  induction name with
  | nil => simp [hasVersionToken] at h
  | cons b rest ih =>
    by_cases hb : b = 118 ∧ (rest.head?.map isDigit).getD false = true
    · refine ⟨[], rest.takeWhile isDigit, rest.dropWhile isDigit, ?_, rfl, ?_, ?_, ?_⟩
      · simp [hb.1]
      · cases rest with
        | nil => simp at hb
        | cons c rest =>
          have hc : isDigit c = true := by simpa using hb.2
          simp [List.takeWhile, hc]
      · intro d hd
        exact (List.mem_takeWhile_imp hd)
      · intro c hc
        have := List.head?_dropWhile_not isDigit rest
        rw [hc] at this
        simpa using this
    · have hrest : hasVersionToken rest = true := by
        simp only [hasVersionToken, Bool.or_eq_true, Bool.and_eq_true, beq_iff_eq] at h
        rcases h with h | h
        · exact absurd h hb
        · exact h
      obtain ⟨pre, ds, post, hname, hpre, hne, hd, hp⟩ := ih hrest
      refine ⟨b :: pre, ds, post, by simp [hname], ?_, hne, hd, hp⟩
      simp only [hasVersionToken, hpre, Bool.or_false]
      cases pre with
      | nil => simp
      | cons c pre =>
        rw [hname] at hb
        simp only [List.cons_append, List.head?_cons, Option.map_some', Option.getD_some] at hb
        simp only [List.head?_cons, Option.map_some', Option.getD_some, Bool.and_eq_false_imp,
          beq_iff_eq]
        intro h118
        by_contra hcon
        exact hb ⟨h118, by simpa using hcon⟩

/-! ## `getNewTargets`: the two loops in closed form -/

theorem portLoop_eq (instanceID : GoString) (ports : List Port) (targets : elbTargetSlice) :
    portLoop instanceID targets ports =
      targets ++ containerTargets instanceID { Names := [], Ports := ports } := by
  induction ports generalizing targets with
  | nil => simp [portLoop, containerTargets]
  | cons p ports ih =>
    unfold portLoop at ih ⊢
    rw [List.foldl_cons, ih]
    by_cases hp : p.PublicPort = 0
    · simp [containerTargets, hp]
    · simp [containerTargets, hp]

theorem containerTargets_ports (instanceID : GoString) (c : Container) :
    containerTargets instanceID { Names := [], Ports := c.Ports } =
      containerTargets instanceID c := rfl

theorem targetLoop_from (instanceID : GoString) (group : List Container)
    (targets : elbTargetSlice) :
    group.foldl (fun targets c => portLoop instanceID targets c.Ports) targets =
      targets ++ group.flatMap (containerTargets instanceID) := by
  induction group generalizing targets with
  | nil => simp
  | cons c group ih =>
    rw [List.foldl_cons, ih, portLoop_eq, containerTargets_ports]
    simp [List.flatMap_cons]

theorem targetLoop_eq (instanceID : GoString) (group : List Container) :
    targetLoop instanceID group = group.flatMap (containerTargets instanceID) := by
  unfold targetLoop
  rw [targetLoop_from]
  simp

theorem matchLoop_eq (dockerPrefix : GoString) (cs : List Container) (hv : Int)
    (m : VersionMap) :
    matchLoop dockerPrefix cs hv m =
      if cs.all hasName = true then
        some (highestOf dockerPrefix cs hv,
          fun k => m k ++ cs.filter (fun c => matched dockerPrefix c && decide (versionOf c = k)))
      else none := by
  induction cs generalizing hv m with
  | nil => simp [matchLoop, highestOf]
  | cons c cs ih =>
    cases hname : primaryName c with
    | none => simp [matchLoop, hname, hasName]
    | some name =>
      have hc : hasName c = true := by simp [hasName, hname]
      by_cases hp : HasPrefix name dockerPrefix = true
      · have hm : matched dockerPrefix c = true := by simp [matched, hname, hp]
        have hver : versionOf c = getContainerVersion name := by simp [versionOf, hname]
        simp only [matchLoop, hname, hp, Bool.not_true, Bool.false_eq_true, if_false]
        rw [ih]
        simp only [List.all_cons, hc, Bool.true_and]
        by_cases hall : cs.all hasName = true
        · rw [if_pos hall, if_pos hall]
          congr 1
          refine Prod.ext ?_ ?_
          · simp only [highestOf, List.filter_cons, hm, if_true, List.map_cons, List.foldl_cons,
              hver]
            congr 1
            rcases le_or_lt (getContainerVersion name) hv with h | h
            · rw [if_neg (by omega), max_eq_left h]
            · rw [if_pos (by omega), max_eq_right (le_of_lt h)]
          · funext k
            simp only [List.filter_cons, hm, Bool.true_and, hver]
            by_cases hk : k = getContainerVersion name
            · subst hk
              simp
            · have hk' : ¬ getContainerVersion name = k := fun h => hk h.symm
              simp [hk, hk']
        · rw [if_neg hall, if_neg hall]
      · have hm : matched dockerPrefix c = false := by simp [matched, hname, hp]
        simp only [matchLoop, hname, hp, Bool.not_false, if_true]
        rw [ih]
        simp [List.all_cons, hc, highestOf, List.filter_cons, hm]

theorem foldl_max_ge_start (l : List Int) (a : Int) : a ≤ l.foldl max a := by
  induction l generalizing a with
  | nil => simp
  | cons x l ih => exact le_trans (le_max_left a x) (ih (max a x))

theorem foldl_max_ge_mem (l : List Int) (a x : Int) (hx : x ∈ l) : x ≤ l.foldl max a := by
  induction l generalizing a with
  | nil => simp at hx
  | cons y l ih =>
    rcases List.mem_cons.mp hx with h | h
    · subst h
      exact le_trans (le_max_right a x) (foldl_max_ge_start l (max a x))
    · exact ih (max a y) h

theorem foldl_max_attained (l : List Int) (a : Int) :
    l.foldl max a = a ∨ l.foldl max a ∈ l := by
  induction l generalizing a with
  | nil => simp
  | cons y l ih =>
    rcases ih (max a y) with h | h
    · rcases max_choice a y with h2 | h2
      · left
        rw [List.foldl_cons, h, h2]
      · right
        rw [List.foldl_cons, h, h2]
        exact List.mem_cons_self _ _
    · right
      exact List.mem_cons_of_mem _ h

theorem versionOf_nonneg (c : Container) : 0 ≤ versionOf c := by
  unfold versionOf
  split
  · exact getContainerVersion_nonneg _
  · exact le_refl 0

theorem versionOf_le_highestOf (dockerPrefix : GoString) (cs : List Container) (start : Int)
    (c : Container) (hc : c ∈ cs) (hm : matched dockerPrefix c = true) :
    versionOf c ≤ highestOf dockerPrefix cs start := by
  apply foldl_max_ge_mem
  exact List.mem_map.mpr ⟨c, List.mem_filter.mpr ⟨hc, hm⟩, rfl⟩

theorem highestOf_attained (dockerPrefix : GoString) (cs : List Container) (start : Int) :
    highestOf dockerPrefix cs start = start ∨
      ∃ c ∈ cs, matched dockerPrefix c = true ∧ versionOf c = highestOf dockerPrefix cs start := by
  rcases foldl_max_attained ((cs.filter (matched dockerPrefix)).map versionOf) start with h | h
  · exact Or.inl h
  · right
    obtain ⟨c, hc, hv⟩ := List.mem_map.mp h
    exact ⟨c, (List.mem_filter.mp hc).1, (List.mem_filter.mp hc).2, hv⟩

theorem isHighest_iff (dockerPrefix : GoString) (cs : List Container) (c : Container) :
    isHighest dockerPrefix cs c = true ↔
      matched dockerPrefix c = true ∧
        ∀ c' ∈ cs, matched dockerPrefix c' = true → versionOf c' ≤ versionOf c := by
  simp only [isHighest, Bool.and_eq_true, List.all_eq_true, Bool.or_eq_true, Bool.not_eq_true',
    decide_eq_true_eq]
  constructor
  · rintro ⟨hm, hall⟩
    refine ⟨hm, fun c' hc' hm' => ?_⟩
    rcases hall c' hc' with h | h
    · rw [hm'] at h
      exact absurd h (by decide)
    · exact h
  · rintro ⟨hm, hall⟩
    refine ⟨hm, fun c' hc' => ?_⟩
    cases hm' : matched dockerPrefix c' with
    | false => exact Or.inl rfl
    | true => exact Or.inr (hall c' hc' hm')

theorem highest_group (dockerPrefix : GoString) (cs : List Container) :
    cs.filter (fun c => matched dockerPrefix c && decide (versionOf c = highestOf dockerPrefix cs 0))
      = cs.filter (isHighest dockerPrefix cs) := by
  apply List.filter_congr
  intro c hc
  rw [Bool.eq_iff_iff, isHighest_iff]
  simp only [Bool.and_eq_true, decide_eq_true_eq]
  constructor
  · rintro ⟨hm, hv⟩
    refine ⟨hm, fun c' hc' hm' => ?_⟩
    rw [hv]
    exact versionOf_le_highestOf dockerPrefix cs 0 c' hc' hm'
  · rintro ⟨hm, hall⟩
    refine ⟨hm, le_antisymm (versionOf_le_highestOf dockerPrefix cs 0 c hc hm) ?_⟩
    rcases highestOf_attained dockerPrefix cs 0 with h | ⟨c', hc', hm', hv'⟩
    · rw [h]
      exact versionOf_nonneg c
    · rw [← hv']
      exact hall c' hc' hm'

theorem getNewTargets_eq (instanceID dockerPrefix : GoString) (cs : List Container) :
    getNewTargets instanceID dockerPrefix cs =
      if cs.all hasName = true then
        some ((cs.filter (isHighest dockerPrefix cs)).flatMap (containerTargets instanceID))
      else none := by
  unfold getNewTargets
  rw [matchLoop_eq]
  by_cases hall : cs.all hasName = true
  · simp only [if_pos hall, emptyVersionMap, List.nil_append, targetLoop_eq, highest_group]
  · simp only [if_neg hall]

theorem isLower_eq (dockerPrefix : GoString) (cs : List Container) (c : Container) :
    isLower dockerPrefix cs c = (matched dockerPrefix c && !(isHighest dockerPrefix cs c)) := by
  rw [Bool.eq_iff_iff]
  simp only [isLower, Bool.and_eq_true, List.any_eq_true, decide_eq_true_eq, Bool.not_eq_true',
    ← Bool.not_eq_true, isHighest_iff]
  constructor
  · rintro ⟨hm, c', hc', hm', hlt⟩
    refine ⟨hm, fun h => ?_⟩
    have := h.2 c' hc' hm'
    omega
  · rintro ⟨hm, hnot⟩
    refine ⟨hm, ?_⟩
    by_contra hcon
    apply hnot
    refine ⟨hm, fun c' hc' hm' => ?_⟩
    by_contra hlt
    exact hcon ⟨c', hc', hm', by omega⟩

theorem all_hasName_filter (cs : List Container) (q : Container → Bool)
    (hq : ∀ c ∈ cs, hasName c = false → q c = true) :
    (cs.filter q).all hasName = cs.all hasName := by
  induction cs with
  | nil => rfl
  | cons c cs ih =>
    have ih' := ih (fun c' hc' => hq c' (List.mem_cons_of_mem _ hc'))
    cases hn : hasName c with
    | true =>
      cases hqc : q c with
      | true => simp [List.filter_cons, hqc, hn, ih']
      | false => simp [List.filter_cons, hqc, hn, ih']
    | false =>
      have hqc := hq c (List.mem_cons_self _ _) hn
      simp [List.filter_cons, hqc, hn]

theorem matched_hasName (dockerPrefix : GoString) (c : Container)
    (h : matched dockerPrefix c = true) : hasName c = true := by
  unfold matched at h
  unfold hasName
  cases hp : primaryName c with
  | none => simp [hp] at h
  | some name => rfl

/-- Dropping containers that are not among the highest ones leaves the highest
ones as they were, provided every highest one is kept. -/
theorem filter_isHighest_filter (dockerPrefix : GoString) (cs : List Container)
    (q : Container → Bool)
    (hkeep : ∀ c ∈ cs, isHighest dockerPrefix cs c = true → q c = true) :
    (cs.filter q).filter (isHighest dockerPrefix (cs.filter q)) =
      cs.filter (isHighest dockerPrefix cs) := by
  rw [List.filter_filter]
  apply List.filter_congr
  intro c hc
  rw [Bool.eq_iff_iff]
  simp only [Bool.and_eq_true, isHighest_iff]
  constructor
  · rintro ⟨⟨hm, hall⟩, hq⟩
    refine ⟨hm, fun c' hc' hm' => ?_⟩
    -- some highest container `top` of `cs` is kept, and it bounds `c'`
    rcases highestOf_attained dockerPrefix cs 0 with h0 | ⟨top, htop, hmtop, hvtop⟩
    · have h1 := versionOf_le_highestOf dockerPrefix cs 0 c' hc' hm'
      have h2 := versionOf_nonneg c
      omega
    · have htopHigh : isHighest dockerPrefix cs top = true := by
        rw [isHighest_iff]
        refine ⟨hmtop, fun d hd hmd => ?_⟩
        rw [hvtop]
        exact versionOf_le_highestOf dockerPrefix cs 0 d hd hmd
      have h1 := hall top (List.mem_filter.mpr ⟨htop, hkeep top htop htopHigh⟩) hmtop
      have h2 := versionOf_le_highestOf dockerPrefix cs 0 c' hc' hm'
      omega
  · rintro ⟨hm, hall⟩
    have hhigh : isHighest dockerPrefix cs c = true := (isHighest_iff _ _ _).mpr ⟨hm, hall⟩
    exact ⟨⟨hm, fun c' hc' hm' => hall c' (List.mem_filter.mp hc').1 hm'⟩, hkeep c hc hhigh⟩

theorem getNewTargets_filter (instanceID dockerPrefix : GoString) (cs : List Container)
    (q : Container → Bool)
    (hname : ∀ c ∈ cs, hasName c = false → q c = true)
    (hkeep : ∀ c ∈ cs, isHighest dockerPrefix cs c = true → q c = true) :
    getNewTargets instanceID dockerPrefix (cs.filter q) =
      getNewTargets instanceID dockerPrefix cs := by
  rw [getNewTargets_eq, getNewTargets_eq, all_hasName_filter cs q hname,
    filter_isHighest_filter dockerPrefix cs q hkeep]

/-! ## Claims about `getNewTargets` -/

/-- C3. Rolling-deploy cutover: `getNewTargets` returns (when line 64 panics on
no container) exactly the targets of the matched containers whose extracted
version is the largest among the matched ones; every returned target comes from
such a container; and removing every matched container of a strictly lower
version, however many, leaves the result as it is. -/
theorem getNewTargets_highest_version (instanceID dockerPrefix : GoString)
    (cs : List Container) :
    (getNewTargets instanceID dockerPrefix cs =
      if cs.all hasName = true then
        some ((cs.filter (isHighest dockerPrefix cs)).flatMap (containerTargets instanceID))
      else none) ∧
    (∀ ts, getNewTargets instanceID dockerPrefix cs = some ts → ∀ t ∈ ts,
      ∃ c ∈ cs, matched dockerPrefix c = true ∧
        (∀ c' ∈ cs, matched dockerPrefix c' = true → versionOf c' ≤ versionOf c) ∧
        t ∈ containerTargets instanceID c) ∧
    getNewTargets instanceID dockerPrefix (cs.filter (fun c => !(isLower dockerPrefix cs c))) =
      getNewTargets instanceID dockerPrefix cs := by
  refine ⟨getNewTargets_eq _ _ _, ?_, ?_⟩
  · intro ts hts t ht
    rw [getNewTargets_eq] at hts
    by_cases hall : cs.all hasName = true
    · rw [if_pos hall] at hts
      injection hts with hts
      subst hts
      obtain ⟨c, hc, htc⟩ := List.mem_flatMap.mp ht
      obtain ⟨hcs, hhigh⟩ := List.mem_filter.mp hc
      exact ⟨c, hcs, ((isHighest_iff _ _ _).mp hhigh).1, ((isHighest_iff _ _ _).mp hhigh).2, htc⟩
    · rw [if_neg hall] at hts
      exact absurd hts (by simp)
  · apply getNewTargets_filter
    · intro c _ hn
      cases hm : matched dockerPrefix c with
      | true => rw [matched_hasName dockerPrefix c hm] at hn; exact absurd hn (by decide)
      | false => simp [isLower, hm]
    · intro c _ hhigh
      simp [isLower_eq, hhigh]

/-- C3, at the fleet with versions 0, 1, 1 and 3: only the ports of the
version-3 container are returned, and each comes from a container of the
largest version. -/
theorem getNewTargets_highest_version_witness :
    getNewTargets (ascii "i-1") (ascii "app-") fleet0113 =
        some [⟨ascii "i-1", 8003⟩, ⟨ascii "i-1", 8004⟩] ∧
      (fleet0113.map versionOf = [0, 1, 1, 3]) ∧
      ∀ t ∈ [(⟨ascii "i-1", 8003⟩ : elbTarget), ⟨ascii "i-1", 8004⟩],
        ∃ c ∈ fleet0113, matched (ascii "app-") c = true ∧
          (∀ c' ∈ fleet0113, matched (ascii "app-") c' = true → versionOf c' ≤ versionOf c) ∧
          t ∈ containerTargets (ascii "i-1") c :=
  ⟨by decide, by decide,
    (getNewTargets_highest_version (ascii "i-1") (ascii "app-") fleet0113).2.1 _ (by decide)⟩

theorem versionOf_untagged (c : Container) (h : untagged c = true) : versionOf c = 0 := by
  unfold untagged at h
  unfold versionOf
  cases hp : primaryName c with
  | none => rfl
  | some name =>
    rw [hp] at h
    exact getContainerVersion_no_token name (by simpa using h)

theorem untagged_hasName (c : Container) (h : untagged c = true) : hasName c = true := by
  unfold untagged at h
  unfold hasName
  cases hp : primaryName c with
  | none => simp [hp] at h
  | some name => rfl

theorem highestOf_drop_untagged (dockerPrefix : GoString) (cs : List Container) (start : Int)
    (hstart : 0 ≤ start) :
    highestOf dockerPrefix (cs.filter (fun c => !(untagged c))) start =
      highestOf dockerPrefix cs start := by
  induction cs generalizing start with
  | nil => rfl
  | cons c cs ih =>
    cases hu : untagged c with
    | false =>
      cases hm : matched dockerPrefix c with
      | false =>
        have := ih start hstart
        simpa [highestOf, List.filter_cons, hu, hm] using this
      | true =>
        have := ih (max start (versionOf c)) (le_trans hstart (le_max_left _ _))
        simpa [highestOf, List.filter_cons, hu, hm] using this
    | true =>
      have hv := versionOf_untagged c hu
      have := ih start hstart
      cases hm : matched dockerPrefix c with
      | false => simpa [highestOf, List.filter_cons, hu, hm] using this
      | true => simpa [highestOf, List.filter_cons, hu, hm, hv, max_eq_left hstart] using this

/-- C4, as the code has it. A container whose name holds no `v`+digits token
gets version 0 from `getContainerVersion`, the version of a container tagged
`v0`, and is filed in the same group; it never changes `highestVersion`; it
contributes no target when some matched container has a version above 0; when
no matched container has a version above 0 the result is the targets of all
matched containers, tagged `v0` or not tagged; so it is when no matched
container of a fleet carries a version tag. -/
theorem getNewTargets_untagged (instanceID dockerPrefix : GoString) (cs : List Container) :
    (∀ c, untagged c = true → versionOf c = 0) ∧
    ((matchLoop dockerPrefix (cs.filter (fun c => !(untagged c))) 0 emptyVersionMap).map Prod.fst =
      (matchLoop dockerPrefix cs 0 emptyVersionMap).map Prod.fst) ∧
    ((∃ c ∈ cs, matched dockerPrefix c = true ∧ 0 < versionOf c) →
      getNewTargets instanceID dockerPrefix (cs.filter (fun c => !(untagged c))) =
        getNewTargets instanceID dockerPrefix cs) ∧
    ((∀ c ∈ cs, matched dockerPrefix c = true → versionOf c ≤ 0) →
      getNewTargets instanceID dockerPrefix cs =
        if cs.all hasName = true then
          some ((cs.filter (matched dockerPrefix)).flatMap (containerTargets instanceID))
        else none) ∧
    ((∀ c ∈ cs, matched dockerPrefix c = true → untagged c = true) →
      getNewTargets instanceID dockerPrefix cs =
        if cs.all hasName = true then
          some ((cs.filter (matched dockerPrefix)).flatMap (containerTargets instanceID))
        else none) := by
  have hzero : (∀ c ∈ cs, matched dockerPrefix c = true → versionOf c ≤ 0) →
      getNewTargets instanceID dockerPrefix cs =
        if cs.all hasName = true then
          some ((cs.filter (matched dockerPrefix)).flatMap (containerTargets instanceID))
        else none := by
    intro hall
    rw [getNewTargets_eq]
    have : cs.filter (isHighest dockerPrefix cs) = cs.filter (matched dockerPrefix) := by
      apply List.filter_congr
      intro c hc
      rw [Bool.eq_iff_iff, isHighest_iff]
      constructor
      · exact fun h => h.1
      · intro hm
        exact ⟨hm, fun c' hc' hm' => le_trans (hall c' hc' hm') (versionOf_nonneg c)⟩
    rw [this]
  refine ⟨versionOf_untagged, ?_, ?_, hzero, fun hall =>
    hzero (fun c hc hm => le_of_eq (versionOf_untagged c (hall c hc hm)))⟩
  · rw [matchLoop_eq, matchLoop_eq, all_hasName_filter cs _ (fun c _ hn => by
      cases hu : untagged c with
      | false => rfl
      | true => rw [untagged_hasName c hu] at hn; exact absurd hn (by decide))]
    by_cases hall : cs.all hasName = true
    · simp only [if_pos hall, Option.map_some']
      rw [highestOf_drop_untagged dockerPrefix cs 0 (le_refl 0)]
    · simp only [if_neg hall, Option.map_none']
  · rintro ⟨top, htop, hmtop, hvtop⟩
    apply getNewTargets_filter
    · intro c _ hn
      cases hu : untagged c with
      | false => rfl
      | true => rw [untagged_hasName c hu] at hn; exact absurd hn (by decide)
    · intro c _ hhigh
      cases hu : untagged c with
      | false => rfl
      | true =>
        have h1 := ((isHighest_iff _ _ _).mp hhigh).2 top htop hmtop
        rw [versionOf_untagged c hu] at h1
        omega

/-- C4 fails as stated: the one container of this fleet has no version token
and matches the prefix, and `getNewTargets` returns its port: the desired set
is not empty. -/
theorem getNewTargets_untagged_counterexample :
    (fleetUntagged.all untagged = true) ∧
      (fleetUntagged.all (matched (ascii "myapp-")) = true) ∧
      getNewTargets (ascii "i-1") (ascii "myapp-") fleetUntagged =
        some [⟨ascii "i-1", 8080⟩] := by
  decide

/-- C4, at concrete fleets: with a version-2 container next to it the untagged
container contributes nothing, alone it contributes its port. -/
theorem getNewTargets_untagged_witness :
    (getNewTargets (ascii "i-1") (ascii "myapp-") (fleetMixed.filter (fun c => !(untagged c))) =
        getNewTargets (ascii "i-1") (ascii "myapp-") fleetMixed) ∧
      getNewTargets (ascii "i-1") (ascii "myapp-") fleetMixed = some [⟨ascii "i-1", 8082⟩] ∧
      getNewTargets (ascii "i-1") (ascii "myapp-") fleetUntagged =
        (if fleetUntagged.all hasName = true then
          some ((fleetUntagged.filter (matched (ascii "myapp-"))).flatMap
            (containerTargets (ascii "i-1")))
        else none) :=
  ⟨(getNewTargets_untagged (ascii "i-1") (ascii "myapp-") fleetMixed).2.2.1
      ⟨{ Names := [ascii "/myapp-v2"], Ports := [⟨8082⟩] }, by decide, by decide, by decide⟩,
    by decide,
    (getNewTargets_untagged (ascii "i-1") (ascii "myapp-") fleetUntagged).2.2.2.2 (by decide)⟩

theorem matchLoop_drop_nonMatching (dockerPrefix : GoString) (cs : List Container) (hv : Int)
    (m : VersionMap) :
    matchLoop dockerPrefix (cs.filter (fun c => !(nonMatching dockerPrefix c))) hv m =
      matchLoop dockerPrefix cs hv m := by
  induction cs generalizing hv m with
  | nil => rfl
  | cons c cs ih =>
    cases hname : primaryName c with
    | none =>
      have hn : nonMatching dockerPrefix c = false := by simp [nonMatching, hasName, hname]
      simp [List.filter_cons, hn, matchLoop, hname]
    | some name =>
      by_cases hp : HasPrefix name dockerPrefix = true
      · have hn : nonMatching dockerPrefix c = false := by
          simp [nonMatching, hasName, matched, hname, hp]
        simp only [List.filter_cons, hn, Bool.not_false, if_true, matchLoop, hname, hp,
          Bool.not_true, Bool.false_eq_true, if_false]
        exact ih _ _
      · have hn : nonMatching dockerPrefix c = true := by
          simp [nonMatching, hasName, matched, hname, hp]
        simp only [List.filter_cons, hn, Bool.not_true, Bool.false_eq_true, if_false, matchLoop,
          hname, hp, Bool.not_false, if_true]
        exact ih _ _

/-- C9. Prefix filtering: a container whose primary name, after its first byte
is dropped, does not start with the prefix changes nothing: with all such
containers removed, the first loop of `getNewTargets` ends with the same
`highestVersion` and `matchedContainers`, and `getNewTargets` returns the same
result (or panics the same). -/
theorem getNewTargets_prefix_filter (instanceID dockerPrefix : GoString) (cs : List Container) :
    (∀ hv m, matchLoop dockerPrefix (cs.filter (fun c => !(nonMatching dockerPrefix c))) hv m =
      matchLoop dockerPrefix cs hv m) ∧
    getNewTargets instanceID dockerPrefix (cs.filter (fun c => !(nonMatching dockerPrefix c))) =
      getNewTargets instanceID dockerPrefix cs := by
  refine ⟨matchLoop_drop_nonMatching dockerPrefix cs, ?_⟩
  unfold getNewTargets
  rw [matchLoop_drop_nonMatching]

/-- C9, at a fleet with `other-service-v2` and `myapp-v1` under the prefix
`myapp-`: the other service does not match, and although its tag is the higher
one the result is the port of `myapp-v1`, as without it. -/
theorem getNewTargets_prefix_filter_witness :
    HasPrefix (ascii "other-service-v2") (ascii "myapp-") = false ∧
      fleetOther.map versionOf = [2, 1] ∧
      fleetOther.filter (fun c => !(nonMatching (ascii "myapp-") c)) =
        [{ Names := [ascii "/myapp-v1"], Ports := [⟨8081⟩, ⟨0⟩] }] ∧
      getNewTargets (ascii "i-1") (ascii "myapp-") fleetOther = some [⟨ascii "i-1", 8081⟩] ∧
      getNewTargets (ascii "i-1") (ascii "myapp-")
          (fleetOther.filter (fun c => !(nonMatching (ascii "myapp-") c))) =
        getNewTargets (ascii "i-1") (ascii "myapp-") fleetOther :=
  ⟨by decide, by decide, by decide, by decide,
    (getNewTargets_prefix_filter (ascii "i-1") (ascii "myapp-") fleetOther).2⟩

theorem mem_containerTargets (instanceID : GoString) (c : Container) (t : elbTarget) :
    t ∈ containerTargets instanceID c ↔
      ∃ p ∈ c.Ports, p.PublicPort ≠ 0 ∧
        t = { instanceID := instanceID, instancePort := p.PublicPort } := by
  simp only [containerTargets, List.mem_map, List.mem_filter, decide_eq_true_eq]
  constructor
  · rintro ⟨p, ⟨hp, hne⟩, rfl⟩
    exact ⟨p, hp, hne, rfl⟩
  · rintro ⟨p, hp, hne, rfl⟩
    exact ⟨p, ⟨hp, hne⟩, rfl⟩

theorem mem_getNewTargets (instanceID dockerPrefix : GoString) (cs : List Container)
    (ts : elbTargetSlice) (h : getNewTargets instanceID dockerPrefix cs = some ts)
    (t : elbTarget) :
    t ∈ ts ↔ ∃ c ∈ cs, isHighest dockerPrefix cs c = true ∧
      ∃ p ∈ c.Ports, p.PublicPort ≠ 0 ∧
        t = { instanceID := instanceID, instancePort := p.PublicPort } := by
  rw [getNewTargets_eq] at h
  by_cases hall : cs.all hasName = true
  · rw [if_pos hall] at h
    injection h with h
    subst h
    simp only [List.mem_flatMap, List.mem_filter, mem_containerTargets]
    constructor
    · rintro ⟨c, ⟨hc, hh⟩, hp⟩
      exact ⟨c, hc, hh, hp⟩
    · rintro ⟨c, hc, hh, hp⟩
      exact ⟨c, ⟨hc, hh⟩, hp⟩
  · rw [if_neg hall] at h
    exact absurd h (by simp)

/-- C10. Port-zero exclusion: no target returned by `getNewTargets` has port 0;
every returned target is the non-zero public port of a port mapping of a
highest-version matched container, so a mapping with public port 0 gives none;
and every non-zero public port of such a container is returned as a target with
that port. -/
theorem getNewTargets_port_zero (instanceID dockerPrefix : GoString) (cs : List Container)
    (ts : elbTargetSlice) (h : getNewTargets instanceID dockerPrefix cs = some ts) :
    (∀ t ∈ ts, t.instancePort ≠ 0) ∧
    (∀ t ∈ ts, ∃ c ∈ cs, isHighest dockerPrefix cs c = true ∧
      ∃ p ∈ c.Ports, p.PublicPort ≠ 0 ∧ p.PublicPort = t.instancePort) ∧
    (∀ c ∈ cs, isHighest dockerPrefix cs c = true → ∀ p ∈ c.Ports, p.PublicPort ≠ 0 →
      ({ instanceID := instanceID, instancePort := p.PublicPort } : elbTarget) ∈ ts) ∧
    ts.length =
      ((cs.filter (isHighest dockerPrefix cs)).flatMap
        (fun c => c.Ports.filter (fun p => p.PublicPort ≠ 0))).length := by
  refine ⟨?_, ?_, ?_, ?_⟩
  · intro t ht
    obtain ⟨c, _, _, p, _, hne, rfl⟩ := (mem_getNewTargets _ _ _ _ h t).mp ht
    exact hne
  · intro t ht
    obtain ⟨c, hc, hh, p, hp, hne, rfl⟩ := (mem_getNewTargets _ _ _ _ h t).mp ht
    exact ⟨c, hc, hh, p, hp, hne, rfl⟩
  · intro c hc hh p hp hne
    exact (mem_getNewTargets _ _ _ _ h _).mpr ⟨c, hc, hh, p, hp, hne, rfl⟩
  · rw [getNewTargets_eq] at h
    by_cases hall : cs.all hasName = true
    · rw [if_pos hall] at h
      injection h with h
      subst h
      have hf : (List.length ∘ containerTargets instanceID) =
          (List.length ∘ fun c : Container => c.Ports.filter (fun p => p.PublicPort ≠ 0)) := by
        funext c
        simp [containerTargets]
      rw [List.length_flatMap, List.length_flatMap, hf]
    · rw [if_neg hall] at h
      exact absurd h (by simp)

/-- C10, at the fleet with versions 0, 1, 1 and 3, whose version-3 container
maps the public ports 8003, 0 and 8004. -/
theorem getNewTargets_port_zero_witness :
    getNewTargets (ascii "i-1") (ascii "app-") fleet0113 =
        some [⟨ascii "i-1", 8003⟩, ⟨ascii "i-1", 8004⟩] ∧
      (∀ t ∈ [(⟨ascii "i-1", 8003⟩ : elbTarget), ⟨ascii "i-1", 8004⟩], t.instancePort ≠ 0) :=
  ⟨by decide,
    (getNewTargets_port_zero (ascii "i-1") (ascii "app-") fleet0113 _ (by decide)).1⟩

/-! ## Runs and their traces -/

theorem contain_iff (targets : elbTargetSlice) (target : elbTarget) :
    targets.contain target = true ↔ target ∈ targets := by
  induction targets with
  | nil => simp [elbTargetSlice.contain]
  | cons t targets ih =>
    by_cases h : target = t
    · simp [elbTargetSlice.contain, h]
    · simp [elbTargetSlice.contain, h, ih]

theorem andThen_none {σ : Type} (r : Run σ) (k : σ → Run σ) (h : r.2 = none) :
    Run.andThen r k = (r.1, none) := by
  simp [Run.andThen, h]

theorem andThen_some {σ : Type} (r : Run σ) (k : σ → Run σ) (s : σ) (h : r.2 = some s) :
    Run.andThen r k = (r.1 ++ (k s).1, (k s).2) := by
  simp [Run.andThen, h]

theorem registered_append (es fs : List Event) :
    registered (es ++ fs) = registered es ++ registered fs := by
  induction es with
  | nil => rfl
  | cons e es ih => cases e <;> simp [registered, ih]

theorem deregistered_append (es fs : List Event) :
    deregistered (es ++ fs) = deregistered es ++ deregistered fs := by
  induction es with
  | nil => rfl
  | cons e es ih => cases e <;> simp [deregistered, ih]

theorem registerLoop_cons_skip {σ : Type} (W : World σ) (name arn : GoString)
    (old : elbTargetSlice) (t : elbTarget) (rest : elbTargetSlice) (s : σ)
    (h : old.contain t = true) :
    registerLoop W name arn old (t :: rest) s = registerLoop W name arn old rest s := by
  simp [registerLoop, h]

theorem registerLoop_cons_fail {σ : Type} (W : World σ) (name arn : GoString)
    (old : elbTargetSlice) (t : elbTarget) (rest : elbTargetSlice) (s : σ)
    (h : old.contain t = false) (hcall : W.RegisterTargets s arn t = none) :
    registerLoop W name arn old (t :: rest) s =
      ([Event.logRegistering name t, Event.registerTarget arn t], none) := by
  simp [registerLoop, h, Run.andThen, registerTarget, hcall]

theorem registerLoop_cons_ok {σ : Type} (W : World σ) (name arn : GoString)
    (old : elbTargetSlice) (t : elbTarget) (rest : elbTargetSlice) (s s' : σ)
    (h : old.contain t = false) (hcall : W.RegisterTargets s arn t = some s') :
    registerLoop W name arn old (t :: rest) s =
      (Event.logRegistering name t :: Event.registerTarget arn t ::
          (registerLoop W name arn old rest s').1,
        (registerLoop W name arn old rest s').2) := by
  simp [registerLoop, h, Run.andThen, registerTarget, hcall]

theorem deregisterLoop_cons_skip {σ : Type} (W : World σ) (name arn : GoString)
    (new : elbTargetSlice) (t : elbTarget) (rest : elbTargetSlice) (s : σ)
    (h : new.contain t = true) :
    deregisterLoop W name arn new (t :: rest) s = deregisterLoop W name arn new rest s := by
  simp [deregisterLoop, h]

theorem deregisterLoop_cons_fail {σ : Type} (W : World σ) (name arn : GoString)
    (new : elbTargetSlice) (t : elbTarget) (rest : elbTargetSlice) (s : σ)
    (h : new.contain t = false) (hcall : W.DeregisterTargets s arn t = none) :
    deregisterLoop W name arn new (t :: rest) s =
      ([Event.logDeRegistering name t, Event.deregisterTarget arn t], none) := by
  simp [deregisterLoop, h, Run.andThen, deregisterTarget, hcall]

theorem deregisterLoop_cons_ok {σ : Type} (W : World σ) (name arn : GoString)
    (new : elbTargetSlice) (t : elbTarget) (rest : elbTargetSlice) (s s' : σ)
    (h : new.contain t = false) (hcall : W.DeregisterTargets s arn t = some s') :
    deregisterLoop W name arn new (t :: rest) s =
      (Event.logDeRegistering name t :: Event.deregisterTarget arn t ::
          (deregisterLoop W name arn new rest s').1,
        (deregisterLoop W name arn new rest s').2) := by
  simp [deregisterLoop, h, Run.andThen, deregisterTarget, hcall]

/-- The register loop makes no deregister call; its register calls are, in
order, a prefix of the new targets that are not old, and all of them when the
loop does not panic. -/
theorem registerLoop_trace {σ : Type} (W : World σ) (name arn : GoString)
    (old new : elbTargetSlice) (s : σ) :
    deregistered (registerLoop W name arn old new s).1 = [] ∧
      registered (registerLoop W name arn old new s).1 <+:
        new.filter (fun t => !(old.contain t)) ∧
      ((registerLoop W name arn old new s).2.isSome = true →
        registered (registerLoop W name arn old new s).1 =
          new.filter (fun t => !(old.contain t))) := by
  induction new generalizing s with
  | nil => simp [registerLoop, registered, deregistered]
  | cons t rest ih =>
    cases h : old.contain t with
    | true =>
      rw [registerLoop_cons_skip W name arn old t rest s h]
      simpa [List.filter_cons, h] using ih s
    | false =>
      cases hcall : W.RegisterTargets s arn t with
      | none =>
        rw [registerLoop_cons_fail W name arn old t rest s h hcall]
        simp [registered, deregistered, List.filter_cons, h, List.cons_prefix_cons]
      | some s' =>
        rw [registerLoop_cons_ok W name arn old t rest s s' h hcall]
        obtain ⟨h1, h2, h3⟩ := ih s'
        refine ⟨by simpa [deregistered] using h1, ?_, ?_⟩
        · simpa [registered, List.filter_cons, h, List.cons_prefix_cons] using h2
        · intro hsome
          simpa [registered, List.filter_cons, h] using h3 hsome

/-- The deregister loop makes no register call; its deregister calls are, in
order, a prefix of the old targets that are not new, and all of them when the
loop does not panic. -/
theorem deregisterLoop_trace {σ : Type} (W : World σ) (name arn : GoString)
    (new old : elbTargetSlice) (s : σ) :
    registered (deregisterLoop W name arn new old s).1 = [] ∧
      deregistered (deregisterLoop W name arn new old s).1 <+:
        old.filter (fun t => !(new.contain t)) ∧
      ((deregisterLoop W name arn new old s).2.isSome = true →
        deregistered (deregisterLoop W name arn new old s).1 =
          old.filter (fun t => !(new.contain t))) := by
  induction old generalizing s with
  | nil => simp [deregisterLoop, registered, deregistered]
  | cons t rest ih =>
    cases h : new.contain t with
    | true =>
      rw [deregisterLoop_cons_skip W name arn new t rest s h]
      simpa [List.filter_cons, h] using ih s
    | false =>
      cases hcall : W.DeregisterTargets s arn t with
      | none =>
        rw [deregisterLoop_cons_fail W name arn new t rest s h hcall]
        simp [registered, deregistered, List.filter_cons, h, List.cons_prefix_cons]
      | some s' =>
        rw [deregisterLoop_cons_ok W name arn new t rest s s' h hcall]
        obtain ⟨h1, h2, h3⟩ := ih s'
        refine ⟨by simpa [registered] using h1, ?_, ?_⟩
        · simpa [deregistered, List.filter_cons, h, List.cons_prefix_cons] using h2
        · intro hsome
          simpa [deregistered, List.filter_cons, h] using h3 hsome

theorem syncTargets_empty {σ : Type} (W : World σ) (name arn : GoString)
    (old : elbTargetSlice) (s : σ) :
    syncTargets W name arn old [] s = ([], some s) := by
  simp [syncTargets]

/-- The calls of one pass, whether or not it panics: the register calls are a
prefix of `new \ old`, the deregister calls a prefix of `old \ new`. -/
theorem syncTargets_trace {σ : Type} (W : World σ) (name arn : GoString)
    (old new : elbTargetSlice) (s : σ) :
    registered (syncTargets W name arn old new s).1 <+:
        new.filter (fun t => !(old.contain t)) ∧
      deregistered (syncTargets W name arn old new s).1 <+:
        old.filter (fun t => !(new.contain t)) := by
  unfold syncTargets
  by_cases hlen : new.length = 0
  · rw [if_pos hlen]
    simp [registered, deregistered]
  · rw [if_neg hlen]
    obtain ⟨h1, h2, h3⟩ := registerLoop_trace W name arn old new s
    cases hr : (registerLoop W name arn old new s).2 with
    | none =>
      rw [andThen_none _ _ hr]
      simp only [h1]
      exact ⟨h2, List.nil_prefix⟩
    | some s1 =>
      rw [andThen_some _ _ s1 hr]
      obtain ⟨g1, g2, _⟩ := deregisterLoop_trace W name arn new old s1
      simp only [registered_append, deregistered_append, g1, h1, List.append_nil, List.nil_append]
      exact ⟨h2, g2⟩

/-- The calls of one pass that does not panic, for a non-empty `newTargets`. -/
theorem syncTargets_complete {σ : Type} (W : World σ) (name arn : GoString)
    (old new : elbTargetSlice) (s : σ) (hne : new ≠ [])
    (hdone : (syncTargets W name arn old new s).2.isSome = true) :
    registered (syncTargets W name arn old new s).1 = new.filter (fun t => !(old.contain t)) ∧
      deregistered (syncTargets W name arn old new s).1 =
        old.filter (fun t => !(new.contain t)) := by
  unfold syncTargets at hdone ⊢
  have hlen : ¬ new.length = 0 := by
    intro h
    exact hne (List.length_eq_zero.mp h)
  rw [if_neg hlen] at hdone ⊢
  obtain ⟨h1, _, h3⟩ := registerLoop_trace W name arn old new s
  cases hr : (registerLoop W name arn old new s).2 with
  | none =>
    rw [andThen_none _ _ hr] at hdone
    simp at hdone
  | some s1 =>
    rw [andThen_some _ _ s1 hr] at hdone ⊢
    obtain ⟨g1, _, g3⟩ := deregisterLoop_trace W name arn new old s1
    simp only [registered_append, deregistered_append, g1, h1, List.append_nil, List.nil_append]
    exact ⟨h3 (by simp [hr]), g3 hdone⟩

/-! ## `getOldTargets` in closed form -/

theorem oldTargetLoop_eq (instanceID : GoString) (ds : List (Option TargetHealthDescription))
    (targets ts : elbTargetSlice) (h : oldTargetLoop instanceID ds targets = some ts) :
    ts = targets ++ (hostPorts instanceID ds).map
      (fun port => { instanceID := instanceID, instancePort := port }) := by
  induction ds generalizing targets with
  | nil =>
    simp only [oldTargetLoop, Option.some.injEq] at h
    simp [hostPorts, h]
  | cons d ds ih =>
    cases d with
    | none => simp [oldTargetLoop] at h
    | some target =>
      obtain ⟨tgt⟩ := target
      cases tgt with
      | none => simp [oldTargetLoop] at h
      | some td =>
        obtain ⟨tid, tport⟩ := td
        cases tid with
        | none => simp [oldTargetLoop] at h
        | some id =>
          by_cases hid : id = instanceID
          · cases tport with
            | none => simp [oldTargetLoop, hid] at h
            | some port =>
              simp only [oldTargetLoop, hid, if_true] at h
              rw [ih _ h]
              simp [hostPorts, hostPort, hid, List.filterMap_cons]
          · simp only [oldTargetLoop, hid, if_false] at h
            rw [ih _ h]
            cases tport <;> simp [hostPorts, hostPort, hid, List.filterMap_cons]

theorem getOldTargets_eq (instanceID : GoString) (ds : List (Option TargetHealthDescription))
    (ts : elbTargetSlice) (h : getOldTargets instanceID ds = some ts) :
    ts = (hostPorts instanceID ds).map
      (fun port => { instanceID := instanceID, instancePort := port }) := by
  have := oldTargetLoop_eq instanceID ds [] ts h
  simpa using this

theorem getOldTargets_instanceID (instanceID : GoString)
    (ds : List (Option TargetHealthDescription)) (ts : elbTargetSlice)
    (h : getOldTargets instanceID ds = some ts) : ∀ t ∈ ts, t.instanceID = instanceID := by
  intro t ht
  rw [getOldTargets_eq instanceID ds ts h] at ht
  obtain ⟨port, _, rfl⟩ := List.mem_map.mp ht
  rfl

theorem getNewTargets_instanceID (instanceID dockerPrefix : GoString) (cs : List Container)
    (ts : elbTargetSlice) (h : getNewTargets instanceID dockerPrefix cs = some ts) :
    ∀ t ∈ ts, t.instanceID = instanceID := by
  intro t ht
  obtain ⟨c, _, _, p, _, _, rfl⟩ := (mem_getNewTargets _ _ _ _ h t).mp ht
  rfl

theorem resolveTargets_instanceID {σ : Type} (W : World σ) (instanceID arg : GoString) (s : σ)
    (r : Resolved σ) (h : resolveTargets W instanceID arg s = some r) :
    (∀ t ∈ r.oldTargets, t.instanceID = instanceID) ∧
      (∀ t ∈ r.newTargets, t.instanceID = instanceID) := by
  unfold resolveTargets at h
  split at h
  · rename_i dockerPrefix targetGroupName rest hsplit
    split at h
    · exact absurd h (by simp)
    · rename_i targetGroups s1 hdesc
      split at h
      · exact absurd h (by simp)
      · rename_i arn harn
        split at h
        · exact absurd h (by simp)
        · rename_i descriptions s2 hhealth
          split at h
          · exact absurd h (by simp)
          · rename_i oldTargets hold
            split at h
            · exact absurd h (by simp)
            · rename_i containers s3 hlist
              split at h
              · exact absurd h (by simp)
              · rename_i newTargets hnew
                injection h with h
                subst h
                exact ⟨getOldTargets_instanceID _ _ _ hold, getNewTargets_instanceID _ _ _ _ hnew⟩
  · exact absurd h (by simp)

theorem mem_of_prefix_filter {l m : elbTargetSlice} {q : elbTarget → Bool} (h : l <+: m.filter q)
    (t : elbTarget) (ht : t ∈ l) : t ∈ m :=
  (List.mem_filter.mp (h.subset ht)).1

theorem processArg_instanceID {σ : Type} (W : World σ) (instanceID arg : GoString) (s : σ) :
    (∀ t ∈ registered (processArg W instanceID arg s).1, t.instanceID = instanceID) ∧
      (∀ t ∈ deregistered (processArg W instanceID arg s).1, t.instanceID = instanceID) := by
  unfold processArg
  cases h : resolveTargets W instanceID arg s with
  | none => simp [registered, deregistered]
  | some r =>
    obtain ⟨hold, hnew⟩ := resolveTargets_instanceID W instanceID arg s r h
    obtain ⟨h1, h2⟩ :=
      syncTargets_trace W r.targetGroupName r.targetGroupArn r.oldTargets r.newTargets r.state
    exact ⟨fun t ht => hnew t (mem_of_prefix_filter h1 t ht),
      fun t ht => hold t (mem_of_prefix_filter h2 t ht)⟩

theorem processAll_instanceID {σ : Type} (W : World σ) (instanceID : GoString)
    (args : List GoString) (s : σ) :
    (∀ t ∈ registered (processAll W instanceID args s).1, t.instanceID = instanceID) ∧
      (∀ t ∈ deregistered (processAll W instanceID args s).1, t.instanceID = instanceID) := by
  induction args generalizing s with
  | nil => simp [processAll, registered, deregistered]
  | cons arg args ih =>
    obtain ⟨h1, h2⟩ := processArg_instanceID W instanceID arg s
    unfold processAll
    cases hr : (processArg W instanceID arg s).2 with
    | none =>
      rw [andThen_none _ _ hr]
      exact ⟨h1, h2⟩
    | some s1 =>
      rw [andThen_some _ _ s1 hr]
      obtain ⟨g1, g2⟩ := ih s1
      simp only [registered_append, deregistered_append, List.mem_append]
      exact ⟨fun t ht => ht.elim (h1 t) (g1 t), fun t ht => ht.elim (h2 t) (g2 t)⟩

theorem mem_registered (es : List Event) (arn : GoString) (t : elbTarget)
    (h : Event.registerTarget arn t ∈ es) : t ∈ registered es := by
  induction es with
  | nil => simp at h
  | cons e es ih =>
    rcases List.mem_cons.mp h with h1 | h1
    · subst h1
      simp [registered]
    · cases e <;> simp [registered, ih h1]

theorem mem_deregistered (es : List Event) (arn : GoString) (t : elbTarget)
    (h : Event.deregisterTarget arn t ∈ es) : t ∈ deregistered es := by
  induction es with
  | nil => simp at h
  | cons e es ih =>
    rcases List.mem_cons.mp h with h1 | h1
    · subst h1
      simp [deregistered]
    · cases e <;> simp [deregistered, ih h1]

/-! ## A second pass -/

theorem registerLoop_nothing {σ : Type} (W : World σ) (name arn : GoString)
    (old new : elbTargetSlice) (s : σ) (h : ∀ t ∈ new, t ∈ old) :
    registerLoop W name arn old new s = ([], some s) := by
  induction new with
  | nil => rfl
  | cons t rest ih =>
    rw [registerLoop_cons_skip W name arn old t rest s
      ((contain_iff old t).mpr (h t (List.mem_cons_self _ _)))]
    exact ih (fun u hu => h u (List.mem_cons_of_mem _ hu))

theorem deregisterLoop_nothing {σ : Type} (W : World σ) (name arn : GoString)
    (new old : elbTargetSlice) (s : σ) (h : ∀ t ∈ old, t ∈ new) :
    deregisterLoop W name arn new old s = ([], some s) := by
  induction old with
  | nil => rfl
  | cons t rest ih =>
    rw [deregisterLoop_cons_skip W name arn new t rest s
      ((contain_iff new t).mpr (h t (List.mem_cons_self _ _)))]
    exact ih (fun u hu => h u (List.mem_cons_of_mem _ hu))

theorem syncTargets_nothing {σ : Type} (W : World σ) (name arn : GoString)
    (old new : elbTargetSlice) (s : σ) (h : ∀ t, t ∈ old ↔ t ∈ new) :
    syncTargets W name arn old new s = ([], some s) := by
  unfold syncTargets
  by_cases hlen : new.length = 0
  · rw [if_pos hlen]
  · rw [if_neg hlen, registerLoop_nothing W name arn old new s (fun t ht => (h t).mpr ht)]
    rw [andThen_some _ _ s rfl,
      deregisterLoop_nothing W name arn new old s (fun t ht => (h t).mp ht)]
    rfl

/-- The registered set after the calls of a trace, when no target is both
registered and deregistered in it. -/
theorem mem_applyEvents (es : List Event) (actual : elbTargetSlice)
    (hdisj : ∀ t ∈ registered es, t ∉ deregistered es) (t : elbTarget) :
    t ∈ applyEvents es actual ↔ (t ∈ actual ∨ t ∈ registered es) ∧ t ∉ deregistered es := by
  induction es generalizing actual with
  | nil => simp [applyEvents, registered, deregistered]
  | cons e es ih =>
    cases e with
    | logRegistering n u =>
      simpa [applyEvents, registered, deregistered] using
        ih actual (by simpa [registered, deregistered] using hdisj)
    | logDeRegistering n u =>
      simpa [applyEvents, registered, deregistered] using
        ih actual (by simpa [registered, deregistered] using hdisj)
    | registerTarget a u =>
      have hd : ∀ t ∈ registered es, t ∉ deregistered es := fun v hv =>
        by simpa [deregistered] using hdisj v (by simp [registered, hv])
      have := ih (actual ++ [u]) hd
      simp only [applyEvents, registered, deregistered, this, List.mem_append,
        List.mem_singleton, List.mem_cons]
      tauto
    | deregisterTarget a u =>
      have hd : ∀ t ∈ registered es, t ∉ deregistered es := fun v hv h =>
        hdisj v (by simpa [registered] using hv) (by simp [deregistered, h])
      have hu : ∀ v ∈ registered es, v ≠ u := fun v hv h =>
        hdisj v (by simpa [registered] using hv) (by simp [deregistered, h])
      have := ih (actual.filter (fun v => v ≠ u)) hd
      simp only [applyEvents, registered, deregistered, this, List.mem_filter, List.mem_cons,
        decide_eq_true_eq, not_or]
      constructor
      · rintro ⟨h1 | h1, h2⟩
        · exact ⟨Or.inl h1.1, h1.2, h2⟩
        · exact ⟨Or.inr h1, hu t h1, h2⟩
      · rintro ⟨h1 | h1, h2, h3⟩
        · exact ⟨Or.inl ⟨h1, h2⟩, h3⟩
        · exact ⟨Or.inr h1, h3⟩

/-- After the calls of a pass that did not panic, for a non-empty `new`, the
registered set holds the targets of `new` and no other. -/
theorem mem_applyEvents_syncTargets {σ : Type} (W : World σ) (name arn : GoString)
    (old new : elbTargetSlice) (s : σ) (hne : new ≠ [])
    (hdone : (syncTargets W name arn old new s).2.isSome = true) (t : elbTarget) :
    t ∈ applyEvents (syncTargets W name arn old new s).1 old ↔ t ∈ new := by
  obtain ⟨hreg, hdereg⟩ := syncTargets_complete W name arn old new s hne hdone
  have hr : ∀ u, u ∈ registered (syncTargets W name arn old new s).1 ↔ u ∈ new ∧ u ∉ old := by
    intro u
    rw [hreg, List.mem_filter, Bool.not_eq_true', ← Bool.not_eq_true, contain_iff]
  have hd : ∀ u, u ∈ deregistered (syncTargets W name arn old new s).1 ↔ u ∈ old ∧ u ∉ new := by
    intro u
    rw [hdereg, List.mem_filter, Bool.not_eq_true', ← Bool.not_eq_true, contain_iff]
  rw [mem_applyEvents _ _ (fun u hu hu' => ((hd u).mp hu').2 ((hr u).mp hu).1), hr, hd]
  tauto

/-! ## Claims about `processAll` -/

/-- C1. Safety guard: when the new target list of a pair is empty, the pass
for that pair makes no call and writes no log line, and goes on to the next
pair, whatever the old targets are. -/
theorem processArg_safety_guard {σ : Type} (W : World σ) (instanceID arg : GoString) (s : σ)
    (r : Resolved σ) (h : resolveTargets W instanceID arg s = some r)
    (hnew : r.newTargets = []) :
    processArg W instanceID arg s = ([], some r.state) ∧
      ∀ (name arn : GoString) (old : elbTargetSlice) (s' : σ),
        syncTargets W name arn old [] s' = ([], some s') := by
  refine ⟨?_, syncTargets_empty W⟩
  unfold processArg
  rw [h]
  simp only
  rw [hnew]
  exact syncTargets_empty W _ _ _ _

/-- C1, with `A` and `B` registered and no container listed: nothing is
called, `A` and `B` stay registered. -/
theorem processArg_safety_guard_witness :
    resolveTargets simWorld (ascii "i-1") (ascii "app-,app-tg") stateNoContainers =
        some { targetGroupName := ascii "app-tg", targetGroupArn := ascii "arn:app",
               oldTargets := [targetA, targetB], newTargets := [],
               state := stateNoContainers } ∧
      processArg simWorld (ascii "i-1") (ascii "app-,app-tg") stateNoContainers =
        ([], some stateNoContainers) :=
  ⟨by decide,
    (processArg_safety_guard simWorld (ascii "i-1") (ascii "app-,app-tg") stateNoContainers
      { targetGroupName := ascii "app-tg", targetGroupArn := ascii "arn:app",
        oldTargets := [targetA, targetB], newTargets := [], state := stateNoContainers }
      (by decide) rfl).1⟩

/-- C2. Diff correctness: in a pass with a non-empty `newTargets`, every target
passed to `registerTarget` is in `newTargets` and not in `oldTargets`, every
target passed to `deregisterTarget` is in `oldTargets` and not in `newTargets`,
and a target in both lists gets neither call; when the pass does not panic the
registered targets are exactly those of `newTargets` that are not in
`oldTargets`, the deregistered ones exactly those of `oldTargets` that are not
in `newTargets`. -/
theorem syncTargets_diff {σ : Type} (W : World σ) (name arn : GoString)
    (oldTargets newTargets : elbTargetSlice) (s : σ) (hne : newTargets ≠ []) :
    (∀ t ∈ registered (syncTargets W name arn oldTargets newTargets s).1,
        t ∈ newTargets ∧ t ∉ oldTargets) ∧
      (∀ t ∈ deregistered (syncTargets W name arn oldTargets newTargets s).1,
        t ∈ oldTargets ∧ t ∉ newTargets) ∧
      (∀ t, t ∈ newTargets → t ∈ oldTargets →
        t ∉ registered (syncTargets W name arn oldTargets newTargets s).1 ∧
        t ∉ deregistered (syncTargets W name arn oldTargets newTargets s).1) ∧
      ((syncTargets W name arn oldTargets newTargets s).2.isSome = true →
        registered (syncTargets W name arn oldTargets newTargets s).1 =
          newTargets.filter (fun t => !(oldTargets.contain t)) ∧
        deregistered (syncTargets W name arn oldTargets newTargets s).1 =
          oldTargets.filter (fun t => !(newTargets.contain t)) ∧
        (∀ t, t ∈ registered (syncTargets W name arn oldTargets newTargets s).1 ↔
          t ∈ newTargets ∧ t ∉ oldTargets) ∧
        (∀ t, t ∈ deregistered (syncTargets W name arn oldTargets newTargets s).1 ↔
          t ∈ oldTargets ∧ t ∉ newTargets)) := by
  have hf : ∀ (l m : elbTargetSlice) (t : elbTarget),
      t ∈ l.filter (fun u => !(m.contain u)) ↔ t ∈ l ∧ t ∉ m := by
    intro l m t
    rw [List.mem_filter, Bool.not_eq_true', ← Bool.not_eq_true, contain_iff]
  obtain ⟨p1, p2⟩ := syncTargets_trace W name arn oldTargets newTargets s
  have hr : ∀ t ∈ registered (syncTargets W name arn oldTargets newTargets s).1,
      t ∈ newTargets ∧ t ∉ oldTargets := fun t ht => (hf _ _ t).mp (p1.subset ht)
  have hd : ∀ t ∈ deregistered (syncTargets W name arn oldTargets newTargets s).1,
      t ∈ oldTargets ∧ t ∉ newTargets := fun t ht => (hf _ _ t).mp (p2.subset ht)
  refine ⟨hr, hd, fun t hn ho => ⟨fun h => (hr t h).2 ho, fun h => (hd t h).2 hn⟩, ?_⟩
  intro hdone
  obtain ⟨hreg, hdereg⟩ := syncTargets_complete W name arn oldTargets newTargets s hne hdone
  refine ⟨hreg, hdereg, fun t => ?_, fun t => ?_⟩
  · rw [hreg]
    exact hf _ _ t
  · rw [hdereg]
    exact hf _ _ t

/-- C2, for desired `{A, B}` and actual `{B, C}`: `A` is registered, `C` is
deregistered, `B` is left alone. -/
theorem syncTargets_diff_witness :
    registered (syncTargets simWorld (ascii "app-tg") (ascii "arn:app") [targetB, targetC]
        [targetA, targetB] stateNoContainers).1 = [targetA] ∧
      deregistered (syncTargets simWorld (ascii "app-tg") (ascii "arn:app") [targetB, targetC]
        [targetA, targetB] stateNoContainers).1 = [targetC] ∧
      (targetB ∉ registered (syncTargets simWorld (ascii "app-tg") (ascii "arn:app")
          [targetB, targetC] [targetA, targetB] stateNoContainers).1 ∧
        targetB ∉ deregistered (syncTargets simWorld (ascii "app-tg") (ascii "arn:app")
          [targetB, targetC] [targetA, targetB] stateNoContainers).1) :=
  have h := syncTargets_diff simWorld (ascii "app-tg") (ascii "arn:app") [targetB, targetC]
    [targetA, targetB] stateNoContainers (by decide)
  ⟨((h.2.2.2 (by decide)).1).trans (by decide), ((h.2.2.2 (by decide)).2.1).trans (by decide),
    h.2.2.1 targetB (by decide) (by decide)⟩

/-- C5. Host scoping: every target returned by `getOldTargets` and by
`getNewTargets` carries the current host's `instanceID`; so does every target
`processAll` passes to `registerTarget` or `deregisterTarget`; a target of
another host is never deregistered. -/
theorem processAll_host_scoping {σ : Type} (W : World σ) (instanceID : GoString)
    (args : List GoString) (s : σ) :
    (∀ ds ts, getOldTargets instanceID ds = some ts → ∀ t ∈ ts, t.instanceID = instanceID) ∧
      (∀ dockerPrefix cs ts, getNewTargets instanceID dockerPrefix cs = some ts →
        ∀ t ∈ ts, t.instanceID = instanceID) ∧
      (∀ arn t, Event.registerTarget arn t ∈ (processAll W instanceID args s).1 →
        t.instanceID = instanceID) ∧
      (∀ arn t, Event.deregisterTarget arn t ∈ (processAll W instanceID args s).1 →
        t.instanceID = instanceID) ∧
      (∀ arn t, t.instanceID ≠ instanceID →
        Event.deregisterTarget arn t ∉ (processAll W instanceID args s).1) := by
  obtain ⟨h1, h2⟩ := processAll_instanceID W instanceID args s
  exact ⟨getOldTargets_instanceID instanceID, getNewTargets_instanceID instanceID,
    fun arn t h => h1 t (mem_registered _ arn t h),
    fun arn t h => h2 t (mem_deregistered _ arn t h),
    fun arn t hne h => hne (h2 t (mem_deregistered _ arn t h))⟩

/-- C5, in a rolling deploy on the host `i-1` while the host `i-2` has port
8080 registered too: the pass registers `B` and deregisters `A` of `i-1`, and
the registration of `i-2` is still there afterwards. -/
theorem processAll_host_scoping_witness :
    (processAll simWorld (ascii "i-1") [ascii "app-,app-tg"] stateRolling).1 =
        [Event.logRegistering (ascii "app-tg") targetB,
         Event.registerTarget (ascii "arn:app") targetB,
         Event.logDeRegistering (ascii "app-tg") targetA,
         Event.deregisterTarget (ascii "arn:app") targetA] ∧
      Event.deregisterTarget (ascii "arn:app")
          { instanceID := ascii "i-2", instancePort := 8080 } ∉
        (processAll simWorld (ascii "i-1") [ascii "app-,app-tg"] stateRolling).1 :=
  ⟨by decide,
    (processAll_host_scoping simWorld (ascii "i-1") [ascii "app-,app-tg"] stateRolling).2.2.2.2
      (ascii "arn:app") { instanceID := ascii "i-2", instancePort := 8080 } (by decide)⟩

/-- C6. Idempotent convergence: when the calls of a pass that did not panic
are applied to the actual list, a second pass with the same desired list, in
any world, makes no call at all. -/
theorem syncTargets_idempotent {σ τ : Type} (W : World σ) (W' : World τ)
    (name arn name' arn' : GoString) (oldTargets newTargets : elbTargetSlice) (s : σ) (s' : τ)
    (hdone : (syncTargets W name arn oldTargets newTargets s).2.isSome = true) :
    syncTargets W' name' arn'
        (applyEvents (syncTargets W name arn oldTargets newTargets s).1 oldTargets)
        newTargets s' = ([], some s') := by
  by_cases hne : newTargets = []
  · subst hne
    exact syncTargets_empty W' _ _ _ _
  · exact syncTargets_nothing W' name' arn' _ newTargets s'
      (mem_applyEvents_syncTargets W name arn oldTargets newTargets s hne hdone)

/-- C6, for desired `{A, B}` and actual `{B, C}`: the first pass makes two
calls, the second none. -/
theorem syncTargets_idempotent_witness :
    (syncTargets simWorld (ascii "app-tg") (ascii "arn:app") [targetB, targetC]
        [targetA, targetB] stateNoContainers).1.length = 4 ∧
      applyEvents (syncTargets simWorld (ascii "app-tg") (ascii "arn:app") [targetB, targetC]
        [targetA, targetB] stateNoContainers).1 [targetB, targetC] = [targetB, targetA] ∧
      syncTargets simWorld (ascii "app-tg") (ascii "arn:app")
        (applyEvents (syncTargets simWorld (ascii "app-tg") (ascii "arn:app") [targetB, targetC]
          [targetA, targetB] stateNoContainers).1 [targetB, targetC])
        [targetA, targetB] stateNoContainers = ([], some stateNoContainers) :=
  ⟨by decide, by decide,
    syncTargets_idempotent simWorld simWorld (ascii "app-tg") (ascii "arn:app") (ascii "app-tg")
      (ascii "arn:app") [targetB, targetC] [targetA, targetB] stateNoContainers
      stateNoContainers (by decide)⟩

theorem target_injective (instanceID : GoString) :
    Function.Injective
      (fun port : Int => ({ instanceID := instanceID, instancePort := port } : elbTarget)) := by
  intro a b h
  simpa using h

/-- C8, as the code has it. The lists are slices and keep duplicates:
`getNewTargets` returns one entry for every non-zero port mapping of the
highest-version matched containers, so its result is free of duplicates exactly
when those public ports are pairwise distinct; `getOldTargets` returns one entry
for every description of this host, free of duplicates exactly when their ports
are pairwise distinct; a pass calls `registerTarget` for a target at most as
often as it occurs in `newTargets`, and `deregisterTarget` at most as often as
it occurs in `oldTargets`: at most once when the list has no duplicate. -/
theorem target_lists_keep_duplicates {σ : Type} (W : World σ)
    (instanceID dockerPrefix name arn : GoString) (cs : List Container)
    (ds : List (Option TargetHealthDescription)) (oldTargets newTargets : elbTargetSlice)
    (s : σ) :
    (∀ ts, getNewTargets instanceID dockerPrefix cs = some ts →
      (ts.Nodup ↔
        ((cs.filter (isHighest dockerPrefix cs)).flatMap
          (fun c => (c.Ports.filter (fun p => p.PublicPort ≠ 0)).map
            (fun p => p.PublicPort))).Nodup)) ∧
    (∀ ts, getOldTargets instanceID ds = some ts →
      (ts.Nodup ↔ (hostPorts instanceID ds).Nodup)) ∧
    (∀ t, (registered (syncTargets W name arn oldTargets newTargets s).1).count t ≤
      newTargets.count t) ∧
    (∀ t, (deregistered (syncTargets W name arn oldTargets newTargets s).1).count t ≤
      oldTargets.count t) ∧
    (newTargets.Nodup → (registered (syncTargets W name arn oldTargets newTargets s).1).Nodup) ∧
    (oldTargets.Nodup →
      (deregistered (syncTargets W name arn oldTargets newTargets s).1).Nodup) := by
  obtain ⟨h1, h2⟩ := syncTargets_trace W name arn oldTargets newTargets s
  have s1 := h1.sublist.trans (List.filter_sublist newTargets)
  have s2 := h2.sublist.trans (List.filter_sublist oldTargets)
  refine ⟨?_, ?_, fun t => s1.count_le t, fun t => s2.count_le t,
    fun h => h.sublist s1, fun h => h.sublist s2⟩
  · intro ts hts
    rw [getNewTargets_eq] at hts
    by_cases hall : cs.all hasName = true
    · rw [if_pos hall] at hts
      injection hts with hts
      subst hts
      have hmap : (cs.filter (isHighest dockerPrefix cs)).flatMap (containerTargets instanceID) =
          ((cs.filter (isHighest dockerPrefix cs)).flatMap
            (fun c => (c.Ports.filter (fun p => p.PublicPort ≠ 0)).map
              (fun p => p.PublicPort))).map
            (fun port => ({ instanceID := instanceID, instancePort := port } : elbTarget)) := by
        rw [List.map_flatMap]
        congr 1
        funext c
        simp [containerTargets, List.map_map, Function.comp_def]
      rw [hmap]
      exact List.nodup_map_iff (target_injective instanceID)
    · rw [if_neg hall] at hts
      exact absurd hts (by simp)
  · intro ts hts
    rw [getOldTargets_eq instanceID ds ts hts]
    exact List.nodup_map_iff (target_injective instanceID)

/-- C8 fails as stated: one container that maps the public port 8080 twice
makes `getNewTargets` return the target twice, and the pass calls
`registerTarget` for it twice. -/
theorem target_lists_unique_counterexample :
    getNewTargets (ascii "i-1") (ascii "app-") stateTwice.containers =
        some [targetA, targetA] ∧
      ¬ [targetA, targetA].Nodup ∧
      registered (processAll simWorld (ascii "i-1") [ascii "app-,app-tg"] stateTwice).1 =
        [targetA, targetA] := by
  refine ⟨by decide, by decide, by decide⟩

/-- C8, at the fleet with versions 0, 1, 1 and 3, whose version-3 container
maps the distinct public ports 8003 and 8004: the result has no duplicate. -/
theorem target_lists_keep_duplicates_witness :
    getNewTargets (ascii "i-1") (ascii "app-") fleet0113 =
        some [⟨ascii "i-1", 8003⟩, ⟨ascii "i-1", 8004⟩] ∧
      [(⟨ascii "i-1", 8003⟩ : elbTarget), ⟨ascii "i-1", 8004⟩].Nodup :=
  ⟨by decide,
    ((target_lists_keep_duplicates simWorld (ascii "i-1") (ascii "app-") [] [] fleet0113 [] [] []
      stateNoContainers).1 _ (by decide)).mpr (by decide)⟩

/-- C7, as the code has it. Version extraction: in a name whose leftmost `v`
followed by a digit is followed by the digit run `ds`, `getContainerVersion`
returns the number `ds` denotes when that is at most `2^63 - 1`, the largest
`int`, and `2^63 - 1` when it is larger; later occurrences are ignored. -/
theorem getContainerVersion_leftmost (pre ds post : GoString)
    (hpre : hasVersionToken pre = false) (hne : ds ≠ [])
    (hd : ∀ d ∈ ds, isDigit d = true)
    (hp : ∀ b, post.head? = some b → isDigit b = false) :
    getContainerVersion (pre ++ 118 :: (ds ++ post)) =
      if decimalValue ds ≤ 2 ^ 63 - 1 then (decimalValue ds : Int) else 2 ^ 63 - 1 := by
  rw [getContainerVersion_token pre ds post hpre hne hd hp]
  unfold maxInt
  split
  · rw [min_eq_left]
    omega
  · rw [min_eq_right]
    omega

/-- C7 fails as stated: the digit run of this name denotes `2^63`, and
`getContainerVersion` returns `2^63 - 1`. -/
theorem getContainerVersion_counterexample :
    decimalValue (ascii "9223372036854775808") = 9223372036854775808 ∧
      getContainerVersion (ascii "app-v9223372036854775808") = 9223372036854775807 := by
  decide

/-- C7, at the name `app-v12-v3`: the leftmost token gives 12, the later `v3`
is ignored. -/
theorem getContainerVersion_leftmost_witness :
    getContainerVersion (ascii "app-v12-v3") = 12 :=
  (getContainerVersion_leftmost (ascii "app-") (ascii "12") (ascii "-v3")
    (by decide) (by decide) (by decide) (by decide)).trans (by decide)

end ElbDockerSync
